import Mathlib

/-!
Shallow embedding of `tree/ntupleutil/v7/src/RNTupleInspector.cxx` (ROOT's
`ROOT::Experimental::RNTupleInspector`) and verification of its specification.

The inspector walks the descriptor of an RNTuple data source once, computing
per-physical-column statistics (`CollectColumnInfo`), then recursively folding
them up the field hierarchy (`CollectFieldInfo`), and serves queries from the
two resulting id-keyed maps.

Modelling conventions:
* The descriptor provider (`RNTupleDescriptor`, an external collaborator that
  the inspector only reads) is modelled as a record holding the enumerable
  physical columns, clusters, and the field hierarchy rooted at the zero
  field.  The field hierarchy is a finite tree by construction of the source
  schema (spec section 4.2), so it is embedded as an inductive rose tree.
* Machine integers (`std::uint64_t` sizes and counts) are modelled as `Nat`;
  the sums computed by the inspector are far below 2^64 for any real source,
  and the specification treats them as mathematical sums.
  `fCompressionSettings` is modelled as `Int` because the source uses the
  sentinel value `-1`.
* C++ exceptions (`RException`), the fatal `R__ASSERT`, and `std::out_of_range`
  thrown by `std::unordered_map::at` are modelled with `Except ErrKind`;
  a thrown construction means no inspector value is produced.
* `std::unordered_map` members keyed by `DescriptorId_t` are modelled as
  association lists; `emplace` does not overwrite an existing key.
-/

/-- Error kinds of the inspector (spec section 7).  `stdOutOfRange` is not one
of the spec's error kinds: it models the raw `std::out_of_range` exception
escaping from `std::unordered_map::at`, which is distinct from the inspector's
descriptive `NotFound` failure (`RException`). -/
inductive ErrKind where
  | nullInput
  | sourceOpenFailure
  | objectNotFound
  | notFound
  | invariantViolation
  | stdOutOfRange
deriving Repr, DecidableEq

/-- Sentinel id used by the descriptor (`kInvalidDescriptorId`, all-ones
64-bit value). -/
def kInvalidDescriptorId : Nat := 18446744073709551615

/-- Page descriptor: one page of one column in one cluster.  `fBytesOnStorage`
flattens the source's `page.fLocator.fBytesOnStorage`. -/
structure RPageInfo where
  fNElements : Nat
  fBytesOnStorage : Nat
deriving Repr, DecidableEq

/-- Column range of one column in one cluster (element count and compression
settings), as returned by `RClusterDescriptor::GetColumnRange`. -/
structure RColumnRange where
  fNElements : Nat
  fCompressionSettings : Int
deriving Repr, DecidableEq

/-- Per-cluster data of one physical column: its column range and its page
range (the ordered list of page descriptors). -/
structure RClusterColumnEntry where
  physicalId : Nat
  columnRange : RColumnRange
  pageInfos : List RPageInfo
deriving Repr, DecidableEq

/-- Cluster descriptor: the per-column entries of one cluster.  A cluster
contains a column iff it has an entry for it. -/
structure RClusterDescriptor where
  entries : List RClusterColumnEntry
deriving Repr, DecidableEq

/-- Test of `RClusterDescriptor::ContainsColumn`. -/
def RClusterDescriptor.ContainsColumn (cd : RClusterDescriptor) (colId : Nat) : Bool :=
  (cd.entries.find? (fun e => e.physicalId == colId)).isSome

/-- Lookup of `RClusterDescriptor::GetColumnRange`.  The source only calls it
for columns the cluster contains; the default branch is unreachable. -/
def RClusterDescriptor.GetColumnRange (cd : RClusterDescriptor) (colId : Nat) : RColumnRange :=
  match cd.entries.find? (fun e => e.physicalId == colId) with
  | some e => e.columnRange
  | none => { fNElements := 0, fCompressionSettings := -1 }

/-- Lookup of `RClusterDescriptor::GetPageRange` (its `fPageInfos` list).  The
source only calls it for columns the cluster contains. -/
def RClusterDescriptor.GetPageRange (cd : RClusterDescriptor) (colId : Nat) : List RPageInfo :=
  match cd.entries.find? (fun e => e.physicalId == colId) with
  | some e => e.pageInfos
  | none => []

/-- Column descriptor: `colType` models `GetModel().GetType()`,
`physicalId` models `GetPhysicalId()`, `isAliasColumn` models
`IsAliasColumn()`. -/
structure RColumnDescriptor where
  physicalId : Nat
  colType : Nat
  isAliasColumn : Bool
deriving Repr, DecidableEq

/-- Field descriptor: id, type name and parent id, as used by the inspector
(`GetId`, `GetTypeName`, `GetParentId`). -/
structure RFieldDescriptor where
  fieldId : Nat
  typeName : String
  parentId : Nat
deriving Repr, DecidableEq

/-- Field hierarchy of the descriptor, rooted at the zero field.  For a node,
`columns` is what `GetColumnIterable(fieldId)` yields (the columns directly
attached to the field, alias columns included) and `children` is what
`GetFieldIterable(fieldId)` yields (the direct child fields).  The hierarchy
is a finite tree by construction of the source schema (spec section 4.2). -/
inductive RFieldTree where
  | node (fieldDesc : RFieldDescriptor) (columns : List RColumnDescriptor)
      (children : List RFieldTree)
deriving Repr

/-- Field descriptor at the root of a field subtree. -/
def RFieldTree.fd : RFieldTree → RFieldDescriptor
  | .node fieldDesc _ _ => fieldDesc

/-- Columns directly attached to the root field of a subtree
(`GetColumnIterable`). -/
def RFieldTree.cols : RFieldTree → List RColumnDescriptor
  | .node _ columns _ => columns

/-- Direct child fields of the root field of a subtree (`GetFieldIterable`). -/
def RFieldTree.children : RFieldTree → List RFieldTree
  | .node _ _ children => children

/-- Field id at the root of a field subtree. -/
def RFieldTree.rootFieldId (t : RFieldTree) : Nat := t.fd.fieldId

/-- Descriptor of the inspected source (the cloned snapshot held in
`fDescriptor`): enumerable physical columns, enumerable clusters, the field
hierarchy, and the element-representation factory of the descriptor provider
(`RColumnElementBase::Generate(type)->GetSize()`), modelled as the function
`elemSizeOf` from the column type tag to the default in-memory element size. -/
structure RNTupleDescriptor where
  physicalColumns : List RColumnDescriptor
  clusters : List RClusterDescriptor
  fieldZero : RFieldTree
  elemSizeOf : Nat → Nat

/-- Count of `RNTupleDescriptor::GetNPhysicalColumns`. -/
def RNTupleDescriptor.GetNPhysicalColumns (desc : RNTupleDescriptor) : Nat :=
  desc.physicalColumns.length

/-- Lookup of `RNTupleDescriptor::GetColumnDescriptor`; the source only calls
it for ids below `GetNPhysicalColumns`. -/
def RNTupleDescriptor.GetColumnDescriptor (desc : RNTupleDescriptor) (colId : Nat) :
    RColumnDescriptor :=
  desc.physicalColumns.getD colId { physicalId := 0, colType := 0, isAliasColumn := false }

/-- Id of the schema's zero (root) field (`GetFieldZeroId`). -/
def RNTupleDescriptor.GetFieldZeroId (desc : RNTupleDescriptor) : Nat :=
  desc.fieldZero.rootFieldId

/-- Modelled from the spec: `RNTupleInspector::RColumnInfo` is declared in
`RNTupleInspector.hxx`, which is not part of this repository snapshot; only
its constructor call `RColumnInfo(colDesc, onDiskSize, elemSize, nElems)` is
visible in the source.  Per spec section 3 it stores the column identity, the
on-disk size, and the data determining the in-memory size and element count. -/
structure RColumnInfo where
  columnDescriptor : RColumnDescriptor
  fOnDiskSize : Nat
  fElementSize : Nat
  fNElements : Nat
deriving Repr, DecidableEq

/-- Accessor `RColumnInfo::GetOnDiskSize`. -/
def RColumnInfo.GetOnDiskSize (ci : RColumnInfo) : Nat := ci.fOnDiskSize

/-- Modelled from the spec: accessor `RColumnInfo::GetInMemorySize` (declared
in the missing `RNTupleInspector.hxx`).  The stored data is the default
element size and the total element count, so the in-memory size is their
product; by spec section 3 this equals the sum over pages of (element count in
page times default element size) whenever the descriptor's per-cluster page
element counts are consistent with its column ranges. -/
def RColumnInfo.GetInMemorySize (ci : RColumnInfo) : Nat := ci.fElementSize * ci.fNElements

/-- Accessor `RColumnInfo::GetType` (the column's logical type tag). -/
def RColumnInfo.GetType (ci : RColumnInfo) : Nat := ci.columnDescriptor.colType

/-- Modelled from the spec: `RNTupleInspector::RFieldTreeInfo` (declared in the
missing `RNTupleInspector.hxx`); the source constructs it as
`RFieldTreeInfo(fieldDescriptor, onDiskSize, inMemSize)` and reads back the
descriptor and the two sizes. -/
structure RFieldTreeInfo where
  fieldDescriptor : RFieldDescriptor
  fOnDiskSize : Nat
  fInMemorySize : Nat
deriving Repr, DecidableEq

/-- Accessor `RFieldTreeInfo::GetOnDiskSize`. -/
def RFieldTreeInfo.GetOnDiskSize (fi : RFieldTreeInfo) : Nat := fi.fOnDiskSize

/-- Accessor `RFieldTreeInfo::GetInMemorySize`. -/
def RFieldTreeInfo.GetInMemorySize (fi : RFieldTreeInfo) : Nat := fi.fInMemorySize

/-- Accessor `RFieldTreeInfo::GetDescriptor`. -/
def RFieldTreeInfo.GetDescriptor (fi : RFieldTreeInfo) : RFieldDescriptor := fi.fieldDescriptor

/-- Lookup in an id-keyed association list (models `std::unordered_map::find`
and `::at`; order of entries is irrelevant because keys are unique in every
map the inspector builds). -/
def lookupEntry {α : Type} (m : List (Nat × α)) (key : Nat) : Option α :=
  (m.find? (fun entry => entry.1 == key)).map (fun entry => entry.2)

/-- Model of `std::unordered_map::emplace`: inserts only when the key is not
already present. -/
def mapEmplace {α : Type} (m : List (Nat × α)) (key : Nat) (v : α) : List (Nat × α) :=
  match lookupEntry m key with
  | some _ => m
  | none => m ++ [(key, v)]

/-- Keys of an association list. -/
def mapKeys {α : Type} (m : List (Nat × α)) : List Nat := m.map (fun e => e.1)

/-- Mutable member state threaded through `CollectColumnInfo`:
`fCompressionSettings` (initialised to the sentinel `-1`), the two
inspector-wide totals, and the column-info map. -/
structure CollectState where
  fCompressionSettings : Int
  fOnDiskSize : Nat
  fInMemorySize : Nat
  fColumnInfo : List (Nat × RColumnInfo)
deriving Repr, DecidableEq

/-- Inner page loop of `CollectColumnInfo` (lines 70-74 of the source): for
each page, add its bytes on storage to the column-local `onDiskSize` and to
the member `fOnDiskSize`, and add its element count times the element size to
the member `fInMemorySize`. -/
def visitPages (elemSize : Nat) :
    List RPageInfo → Nat → Nat → Nat → Nat × Nat × Nat
  | [], onDiskSize, memOnDisk, memInMem => (onDiskSize, memOnDisk, memInMem)
  | page :: pages, onDiskSize, memOnDisk, memInMem =>
    visitPages elemSize pages (onDiskSize + page.fBytesOnStorage)
      (memOnDisk + page.fBytesOnStorage) (memInMem + page.fNElements * elemSize)

/-- Compression-settings update of `CollectColumnInfo` (lines 62-66): if the
member still holds the sentinel `-1` it takes the observed value, otherwise
the observed value must equal the member (`R__ASSERT`); a failed assertion is
the `InvariantViolation` hard failure of spec section 7. -/
def checkCompression (current observed : Int) : Except ErrKind Int :=
  if current == -1 then .ok observed
  else if observed == current then .ok current
  else .error .invariantViolation

/-- Cluster loop of `CollectColumnInfo` (lines 54-75): skip clusters not
containing the column; otherwise read the column range (element count,
compression settings), enforce the compression invariant, and accumulate the
page sums.  Returns the column-local element count and on-disk size together
with the updated member state. -/
def visitClusters (elemSize colId : Nat) :
    List RClusterDescriptor → Nat → Nat → CollectState →
    Except ErrKind (Nat × Nat × CollectState)
  | [], nElems, onDiskSize, st => .ok (nElems, onDiskSize, st)
  | cluster :: clusters, nElems, onDiskSize, st =>
    if cluster.ContainsColumn colId then
      let columnRange := cluster.GetColumnRange colId
      match checkCompression st.fCompressionSettings columnRange.fCompressionSettings with
      | .error e => .error e
      | .ok newSettings =>
        match visitPages elemSize (cluster.GetPageRange colId) onDiskSize
            st.fOnDiskSize st.fInMemorySize with
        | (onDiskSize, memOnDisk, memInMem) =>
          visitClusters elemSize colId clusters (nElems + columnRange.fNElements) onDiskSize
            { st with fCompressionSettings := newSettings, fOnDiskSize := memOnDisk,
                      fInMemorySize := memInMem }
    else
      visitClusters elemSize colId clusters nElems onDiskSize st

/-- Body of the per-column iteration of `CollectColumnInfo` (lines 44-77):
resolve the column descriptor and the default in-memory element size, scan all
clusters, then emplace the resulting `RColumnInfo` keyed by the physical
column id. -/
def processColumn (desc : RNTupleDescriptor) (st : CollectState) (colId : Nat) :
    Except ErrKind CollectState :=
  let colDesc := desc.GetColumnDescriptor colId
  let elemSize := desc.elemSizeOf colDesc.colType
  match visitClusters elemSize colId desc.clusters 0 0 st with
  | .error e => .error e
  | .ok (nElems, onDiskSize, st) =>
    .ok { st with
          fColumnInfo := mapEmplace st.fColumnInfo colId
            { columnDescriptor := colDesc, fOnDiskSize := onDiskSize,
              fElementSize := elemSize, fNElements := nElems } }

/-- Loop over the physical column ids of `CollectColumnInfo`. -/
def visitColumns (desc : RNTupleDescriptor) :
    List Nat → CollectState → Except ErrKind CollectState
  | [], st => .ok st
  | colId :: colIds, st =>
    match processColumn desc st colId with
    | .error e => .error e
    | .ok st => visitColumns desc colIds st

/-- `RNTupleInspector::CollectColumnInfo` (lines 39-79): single pass over all
physical column ids in `[0, GetNPhysicalColumns)`, starting from zeroed totals
and the sentinel compression settings. -/
def CollectColumnInfo (desc : RNTupleDescriptor) : Except ErrKind CollectState :=
  visitColumns desc (List.range desc.GetNPhysicalColumns)
    { fCompressionSettings := -1, fOnDiskSize := 0, fInMemorySize := 0, fColumnInfo := [] }

/-- Body of `RNTupleInspector::GetColumnInfo` (lines 207-215), taking the two
members it reads (`fDescriptor`, `fColumnInfo`) explicitly because
`CollectFieldInfo` invokes the same member function while the inspector is
still under construction.  Note the guard uses a strict `>` against
`GetNPhysicalColumns`, so the id equal to the column count passes the guard
and reaches `fColumnInfo.at`, which throws `std::out_of_range`. -/
def getColumnInfoAux (desc : RNTupleDescriptor) (colMap : List (Nat × RColumnInfo))
    (physicalColumnId : Nat) : Except ErrKind RColumnInfo :=
  if physicalColumnId > desc.GetNPhysicalColumns then
    .error .notFound
  else
    match lookupEntry colMap physicalColumnId with
    | some colInfo => .ok colInfo
    | none => .error .stdOutOfRange

/-- Column loop of `RNTupleInspector::CollectFieldInfo` (lines 85-89): sum the
on-disk and in-memory sizes of the column infos of the columns directly
attached to the field. -/
def sumColumnSizes (desc : RNTupleDescriptor) (colMap : List (Nat × RColumnInfo))
    (onDiskSize inMemSize : Nat) :
    List RColumnDescriptor → Except ErrKind (Nat × Nat)
  | [] => .ok (onDiskSize, inMemSize)
  | col :: cols =>
    match getColumnInfoAux desc colMap col.physicalId with
    | .error e => .error e
    | .ok colInfo =>
      sumColumnSizes desc colMap (onDiskSize + colInfo.GetOnDiskSize)
        (inMemSize + colInfo.GetInMemorySize) cols

mutual
/-- `RNTupleInspector::CollectFieldInfo` (lines 81-103): recursive post-order
walk of the field hierarchy.  Sums the sizes of the field's direct columns,
adds the recursively collected totals of every direct child field, emplaces
the resulting `RFieldTreeInfo` keyed by the field id, and returns it.  The
`fFieldInfo` member is threaded explicitly. -/
def CollectFieldInfo (desc : RNTupleDescriptor) (colMap : List (Nat × RColumnInfo)) :
    RFieldTree → List (Nat × RFieldTreeInfo) →
    Except ErrKind (RFieldTreeInfo × List (Nat × RFieldTreeInfo))
  | .node fieldDesc columns children, fFieldInfo =>
    match sumColumnSizes desc colMap 0 0 columns with
    | .error e => .error e
    | .ok (onDiskSize, inMemSize) =>
      match CollectSubFields desc colMap children fFieldInfo onDiskSize inMemSize with
      | .error e => .error e
      | .ok (onDiskSize, inMemSize, fFieldInfo) =>
        let fieldInfo : RFieldTreeInfo :=
          { fieldDescriptor := fieldDesc, fOnDiskSize := onDiskSize,
            fInMemorySize := inMemSize }
        .ok (fieldInfo, mapEmplace fFieldInfo fieldDesc.fieldId fieldInfo)

/-- Subfield loop of `CollectFieldInfo` (lines 91-98): recursively collect
each direct child field in order and add its totals. -/
def CollectSubFields (desc : RNTupleDescriptor) (colMap : List (Nat × RColumnInfo)) :
    List RFieldTree → List (Nat × RFieldTreeInfo) → Nat → Nat →
    Except ErrKind (Nat × Nat × List (Nat × RFieldTreeInfo))
  | [], fFieldInfo, onDiskSize, inMemSize => .ok (onDiskSize, inMemSize, fFieldInfo)
  | t :: ts, fFieldInfo, onDiskSize, inMemSize =>
    match CollectFieldInfo desc colMap t fFieldInfo with
    | .error e => .error e
    | .ok (subFieldInfo, fFieldInfo) =>
      CollectSubFields desc colMap ts fFieldInfo
        (onDiskSize + subFieldInfo.GetOnDiskSize)
        (inMemSize + subFieldInfo.GetInMemorySize)
end

/-- The inspector: the cloned descriptor, the two computed maps, the two
inspector-wide totals and the source-wide compression settings. -/
structure RNTupleInspector where
  fDescriptor : RNTupleDescriptor
  fColumnInfo : List (Nat × RColumnInfo)
  fFieldInfo : List (Nat × RFieldTreeInfo)
  fOnDiskSize : Nat
  fInMemorySize : Nat
  fCompressionSettings : Int

/-- `RNTupleInspector::GetColumnInfo` (lines 207-215). -/
def RNTupleInspector.GetColumnInfo (insp : RNTupleInspector) (physicalColumnId : Nat) :
    Except ErrKind RColumnInfo :=
  getColumnInfoAux insp.fDescriptor insp.fColumnInfo physicalColumnId

/-- `RNTupleInspector::GetFieldTypeCount` (lines 177-192): iterate the field
map; when `includeSubFields` is false, skip fields whose parent id differs
from the zero-field id; count exact type-name matches. -/
def RNTupleInspector.GetFieldTypeCount (insp : RNTupleInspector) (typeName : String)
    (includeSubFields : Bool) : Nat :=
  insp.fFieldInfo.foldl
    (fun typeCount entry =>
      if !includeSubFields &&
          entry.2.GetDescriptor.parentId != insp.fDescriptor.GetFieldZeroId then
        typeCount
      else if typeName == entry.2.GetDescriptor.typeName then
        typeCount + 1
      else
        typeCount)
    0

/-- `RNTupleInspector::GetColumnTypeCount` (lines 194-205): count column infos
whose type tag matches. -/
def RNTupleInspector.GetColumnTypeCount (insp : RNTupleInspector) (colType : Nat) : Nat :=
  insp.fColumnInfo.foldl
    (fun typeCount entry =>
      if entry.2.GetType == colType then typeCount + 1 else typeCount)
    0

/-- `RNTupleInspector::Create(std::unique_ptr<RPageSource>)` (lines 131-140):
attach to the source (modelled by receiving its descriptor snapshot), run
`CollectColumnInfo`, then `CollectFieldInfo` rooted at the zero field.  Either
both passes succeed and an inspector is produced, or the failure propagates
and no inspector exists. -/
def Create (desc : RNTupleDescriptor) : Except ErrKind RNTupleInspector :=
  match CollectColumnInfo desc with
  | .error e => .error e
  | .ok st =>
    match CollectFieldInfo desc st.fColumnInfo desc.fieldZero [] with
    | .error e => .error e
    | .ok (_, fieldMap) =>
      .ok { fDescriptor := desc, fColumnInfo := st.fColumnInfo, fFieldInfo := fieldMap,
            fOnDiskSize := st.fOnDiskSize, fInMemorySize := st.fInMemorySize,
            fCompressionSettings := st.fCompressionSettings }

/-- `RNTupleInspector::Create(RNTuple*)` (lines 142-152): a null handle is a
hard construction failure thrown before anything else; otherwise a page source
is made from the handle (modelled as the handle carrying the descriptor
snapshot that attaching would produce) and construction proceeds as for a page
source. -/
def CreateFromNTuple (sourceNTuple : Option RNTupleDescriptor) :
    Except ErrKind RNTupleInspector :=
  match sourceNTuple with
  | none => .error .nullInput
  | some ntuple => Create ntuple

/-- Column loop of `GetColumnsForFieldTree` (lines 115-121): append the
physical ids of the columns of the current field, skipping alias columns. -/
def nonAliasColumnIds : List RColumnDescriptor → List Nat
  | [] => []
  | col :: cols =>
    if col.isAliasColumn then nonAliasColumnIds cols
    else col.physicalId :: nonAliasColumnIds cols

mutual
/-- Number of fields in a field subtree (used as the termination measure of
the breadth-first queue loop). -/
def RFieldTree.numFields : RFieldTree → Nat
  | .node _ _ children => 1 + numFieldsList children

/-- Number of fields in a list of field subtrees. -/
def numFieldsList : List RFieldTree → Nat
  | [] => 0
  | t :: ts => t.numFields + numFieldsList ts
end

/-- Queue loop of `RNTupleInspector::GetColumnsForFieldTree` (lines 111-126):
dequeue a field, append the physical ids of its non-alias columns, enqueue its
direct child fields; the queue holds subtrees because in this embedding a field
id is resolved to its subtree of the hierarchy. -/
def fieldTreeQueueLoop : List RFieldTree → List Nat
  | [] => []
  | t :: queue => nonAliasColumnIds t.cols ++ fieldTreeQueueLoop (queue ++ t.children)
termination_by queue => numFieldsList queue
decreasing_by
  have happ : ∀ (a b : List RFieldTree),
      numFieldsList (a ++ b) = numFieldsList a + numFieldsList b := by
    intro a b
    induction a with
    | nil => simp [numFieldsList]
    | cons t ts ih => simp [numFieldsList, ih]; omega
  cases t with
  | node fieldDesc columns children =>
    simp [happ, numFieldsList, RFieldTree.children, RFieldTree.numFields]
    omega

/-- `RNTupleInspector::GetColumnsForFieldTree` (lines 105-129): breadth-first
enumeration of the non-alias physical column ids reachable from a field,
starting from a queue holding only that field. -/
def GetColumnsForFieldTree (t : RFieldTree) : List Nat :=
  fieldTreeQueueLoop [t]

/-- Fuel-indexed model of the same while-loop, used to state termination: one
unit of fuel is one loop iteration (one dequeued field).  `none` means the
fuel ran out before the queue emptied. -/
def fieldTreeQueueLoopFuel : Nat → List RFieldTree → List Nat → Option (List Nat)
  | _, [], acc => some acc
  | 0, _ :: _, _ => none
  | fuel + 1, t :: queue, acc =>
    fieldTreeQueueLoopFuel fuel (queue ++ t.children) (acc ++ nonAliasColumnIds t.cols)

mutual
/-- Field ids of a subtree in preorder. -/
def RFieldTree.fieldIds : RFieldTree → List Nat
  | .node fieldDesc _ children => fieldDesc.fieldId :: fieldIdsList children

/-- Field ids of a list of subtrees, concatenated. -/
def fieldIdsList : List RFieldTree → List Nat
  | [] => []
  | t :: ts => t.fieldIds ++ fieldIdsList ts
end

mutual
/-- Field descriptors of a subtree in preorder. -/
def RFieldTree.fieldDescs : RFieldTree → List RFieldDescriptor
  | .node fieldDesc _ children => fieldDesc :: fieldDescsList children

/-- Field descriptors of a list of subtrees, concatenated. -/
def fieldDescsList : List RFieldTree → List RFieldDescriptor
  | [] => []
  | t :: ts => t.fieldDescs ++ fieldDescsList ts
end

mutual
/-- Physical ids of all columns attached to fields of a subtree (alias columns
included), in preorder. -/
def RFieldTree.allColumnIds : RFieldTree → List Nat
  | .node _ columns children =>
    columns.map (fun c => c.physicalId) ++ allColumnIdsList children

/-- Physical ids of all columns attached to fields of a list of subtrees. -/
def allColumnIdsList : List RFieldTree → List Nat
  | [] => []
  | t :: ts => t.allColumnIds ++ allColumnIdsList ts
end

mutual
/-- Physical ids of the non-alias columns attached to fields of a subtree, in
preorder. -/
def RFieldTree.nonAliasIds : RFieldTree → List Nat
  | .node _ columns children => nonAliasColumnIds columns ++ nonAliasIdsList children

/-- Physical ids of the non-alias columns of a list of subtrees. -/
def nonAliasIdsList : List RFieldTree → List Nat
  | [] => []
  | t :: ts => t.nonAliasIds ++ nonAliasIdsList ts
end

/-- Subtree relation on the field hierarchy: `IsSubtree t r` holds when `t` is
`r` itself or a subtree of one of `r`'s children (i.e. `t` is the subtree
rooted at some field id of `r`). -/
inductive IsSubtree : RFieldTree → RFieldTree → Prop
  | refl (t : RFieldTree) : IsSubtree t t
  | step {t c r : RFieldTree} : IsSubtree t c → c ∈ r.children → IsSubtree t r

/-- Bytes on storage summed over a list of pages. -/
def pagesOnDiskSum (pages : List RPageInfo) : Nat :=
  (pages.map (fun p => p.fBytesOnStorage)).sum

/-- Element counts summed over a list of pages. -/
def pagesElemSum (pages : List RPageInfo) : Nat :=
  (pages.map (fun p => p.fNElements)).sum

/-- Per-page in-memory bytes (element count in page times element size) summed
over a list of pages. -/
def pagesInMemSum (elemSize : Nat) (pages : List RPageInfo) : Nat :=
  (pages.map (fun p => p.fNElements * elemSize)).sum

/-- Clusters of the descriptor that contain the given column. -/
def containingClusters (desc : RNTupleDescriptor) (colId : Nat) : List RClusterDescriptor :=
  desc.clusters.filter (fun c => c.ContainsColumn colId)

/-- Default in-memory element size of a physical column. -/
def columnElementSize (desc : RNTupleDescriptor) (colId : Nat) : Nat :=
  desc.elemSizeOf (desc.GetColumnDescriptor colId).colType

/-- Claimed on-disk size of a column: the sum of bytes on storage over every
page of every cluster that contains the column. -/
def columnOnDiskSum (desc : RNTupleDescriptor) (colId : Nat) : Nat :=
  ((containingClusters desc colId).map (fun c => pagesOnDiskSum (c.GetPageRange colId))).sum

/-- Claimed element count of a column: the sum of the cluster column-range
element counts over every cluster that contains the column. -/
def columnElemSum (desc : RNTupleDescriptor) (colId : Nat) : Nat :=
  ((containingClusters desc colId).map (fun c => (c.GetColumnRange colId).fNElements)).sum

/-- Claimed in-memory size of a column: the sum over its pages of the page
element count times the default in-memory element size. -/
def columnInMemSum (desc : RNTupleDescriptor) (colId : Nat) : Nat :=
  ((containingClusters desc colId).map
    (fun c => pagesInMemSum (columnElementSize desc colId) (c.GetPageRange colId))).sum

/-- The `RColumnInfo` value that `CollectColumnInfo` stores for a column,
expressed through the claimed sums. -/
def mkColumnInfo (desc : RNTupleDescriptor) (colId : Nat) : RColumnInfo :=
  { columnDescriptor := desc.GetColumnDescriptor colId,
    fOnDiskSize := columnOnDiskSum desc colId,
    fElementSize := columnElementSize desc colId,
    fNElements := columnElemSum desc colId }

/-- Column-info map holding `mkColumnInfo` for each id of a list, in order:
the value `CollectColumnInfo` computes for `fColumnInfo`. -/
def idColumnInfoMap (desc : RNTupleDescriptor) (ids : List Nat) : List (Nat × RColumnInfo) :=
  ids.map (fun i => (i, mkColumnInfo desc i))

/-- On-disk size recorded in the column map for a physical id (zero when the
id is absent; the theorems needing this additionally establish presence). -/
def storedOnDiskSize (colMap : List (Nat × RColumnInfo)) (colId : Nat) : Nat :=
  match lookupEntry colMap colId with
  | some ci => ci.GetOnDiskSize
  | none => 0

/-- In-memory size recorded in the column map for a physical id. -/
def storedInMemSize (colMap : List (Nat × RColumnInfo)) (colId : Nat) : Nat :=
  match lookupEntry colMap colId with
  | some ci => ci.GetInMemorySize
  | none => 0

/-- Claimed on-disk sum of the columns directly attached to one field. -/
def columnsOnDiskSum (colMap : List (Nat × RColumnInfo))
    (cols : List RColumnDescriptor) : Nat :=
  (cols.map (fun c => storedOnDiskSize colMap c.physicalId)).sum

/-- Claimed in-memory sum of the columns directly attached to one field. -/
def columnsInMemSum (colMap : List (Nat × RColumnInfo))
    (cols : List RColumnDescriptor) : Nat :=
  (cols.map (fun c => storedInMemSize colMap c.physicalId)).sum

/-- Compression settings of the column ranges visited by `CollectColumnInfo`
for one column, in visiting order (clusters not containing the column are
skipped). -/
def clusterCompressions (colId : Nat) (clusters : List RClusterDescriptor) : List Int :=
  ((clusters.filter (fun c => c.ContainsColumn colId)).map
    (fun c => (c.GetColumnRange colId).fCompressionSettings))

/-- Compression settings of all column ranges visited by `CollectColumnInfo`,
in visiting order (outer loop over column ids, inner loop over clusters). -/
def visitedCompressions (desc : RNTupleDescriptor) : List Int :=
  ((List.range desc.GetNPhysicalColumns).map
    (fun colId => clusterCompressions colId desc.clusters)).flatten

/-- State machine of the compression-settings member over a visit sequence:
exactly the repeated application of `checkCompression`. -/
def compressionFold : Int → List Int → Except ErrKind Int
  | current, [] => .ok current
  | current, x :: xs =>
    match checkCompression current x with
    | .error e => .error e
    | .ok v => compressionFold v xs

/-- Example source of spec section 8: two top-level fields, a scalar field
with one column (10 elements, one 40-byte page) and a composite field with two
columns (5 elements in a 10-byte page, 5 elements in a 40-byte page); all
column ranges report compression settings 505. -/
def exampleDescriptor : RNTupleDescriptor :=
  { physicalColumns :=
      [ { physicalId := 0, colType := 0, isAliasColumn := false },
        { physicalId := 1, colType := 1, isAliasColumn := false },
        { physicalId := 2, colType := 1, isAliasColumn := false } ],
    clusters :=
      [ { entries :=
            [ { physicalId := 0,
                columnRange := { fNElements := 10, fCompressionSettings := 505 },
                pageInfos := [ { fNElements := 10, fBytesOnStorage := 40 } ] },
              { physicalId := 1,
                columnRange := { fNElements := 5, fCompressionSettings := 505 },
                pageInfos := [ { fNElements := 5, fBytesOnStorage := 10 } ] },
              { physicalId := 2,
                columnRange := { fNElements := 5, fCompressionSettings := 505 },
                pageInfos := [ { fNElements := 5, fBytesOnStorage := 40 } ] } ] } ],
    fieldZero :=
      .node { fieldId := 0, typeName := "", parentId := kInvalidDescriptorId } []
        [ .node { fieldId := 1, typeName := "float", parentId := 0 }
            [ { physicalId := 0, colType := 0, isAliasColumn := false } ] [],
          .node { fieldId := 2, typeName := "MyStruct", parentId := 0 } []
            [ .node { fieldId := 3, typeName := "float", parentId := 2 }
                [ { physicalId := 1, colType := 1, isAliasColumn := false } ] [],
              .node { fieldId := 4, typeName := "double", parentId := 2 }
                [ { physicalId := 2, colType := 1, isAliasColumn := false } ] [] ] ],
    elemSizeOf := fun colType => if colType == 0 then 4 else 8 }

/-- Source whose two columns report the compression settings 5 and 7 (the
mismatch scenario of spec section 8). -/
def mismatchDescriptor : RNTupleDescriptor :=
  { physicalColumns :=
      [ { physicalId := 0, colType := 0, isAliasColumn := false },
        { physicalId := 1, colType := 0, isAliasColumn := false } ],
    clusters :=
      [ { entries :=
            [ { physicalId := 0,
                columnRange := { fNElements := 1, fCompressionSettings := 5 },
                pageInfos := [ { fNElements := 1, fBytesOnStorage := 4 } ] },
              { physicalId := 1,
                columnRange := { fNElements := 1, fCompressionSettings := 7 },
                pageInfos := [ { fNElements := 1, fBytesOnStorage := 4 } ] } ] } ],
    fieldZero :=
      .node { fieldId := 0, typeName := "", parentId := kInvalidDescriptorId } []
        [ .node { fieldId := 1, typeName := "float", parentId := 0 }
            [ { physicalId := 0, colType := 0, isAliasColumn := false } ] [],
          .node { fieldId := 2, typeName := "float", parentId := 0 }
            [ { physicalId := 1, colType := 0, isAliasColumn := false } ] [] ],
    elemSizeOf := fun _ => 4 }

/-- Source with a single physical column, exercising the boundary of the
column-lookup guard. -/
def singleColumnDescriptor : RNTupleDescriptor :=
  { physicalColumns := [ { physicalId := 0, colType := 0, isAliasColumn := false } ],
    clusters :=
      [ { entries :=
            [ { physicalId := 0,
                columnRange := { fNElements := 3, fCompressionSettings := 0 },
                pageInfos := [ { fNElements := 3, fBytesOnStorage := 12 } ] } ] } ],
    fieldZero :=
      .node { fieldId := 0, typeName := "", parentId := kInvalidDescriptorId } []
        [ .node { fieldId := 1, typeName := "float", parentId := 0 }
            [ { physicalId := 0, colType := 0, isAliasColumn := false } ] [] ],
    elemSizeOf := fun _ => 4 }

/-! ### Association-list lemmas -/

theorem lookupEntry_append_of_some {α : Type} {m l : List (Nat × α)} {k : Nat} {v : α}
    (h : lookupEntry m k = some v) : lookupEntry (m ++ l) k = some v := by
  induction m with
  | nil => simp [lookupEntry] at h
  | cons e m ih =>
    simp only [lookupEntry, List.find?] at h ⊢
    cases he : (e.1 == k) with
    | true => simpa [he] using h
    | false =>
      simp only [he] at h ⊢
      exact ih h

theorem lookupEntry_append_of_none {α : Type} {m : List (Nat × α)} {k : Nat}
    (l : List (Nat × α)) (h : lookupEntry m k = none) :
    lookupEntry (m ++ l) k = lookupEntry l k := by
  induction m with
  | nil => simp [lookupEntry]
  | cons e m ih =>
    simp only [lookupEntry, List.find?] at h ⊢
    cases he : (e.1 == k) with
    | true => simp [he] at h
    | false =>
      simp only [he] at h ⊢
      exact ih h

theorem lookupEntry_nil {α : Type} (k : Nat) : lookupEntry ([] : List (Nat × α)) k = none := rfl

theorem lookupEntry_singleton_same {α : Type} (k : Nat) (v : α) :
    lookupEntry [(k, v)] k = some v := by
  simp [lookupEntry]

theorem lookupEntry_singleton_ne {α : Type} {k key : Nat} (v : α) (h : key ≠ k) :
    lookupEntry [(key, v)] k = none := by
  have hbe : (key == k) = false := by simpa using h
  simp [lookupEntry, List.find?, hbe]

theorem mapEmplace_of_absent {α : Type} {m : List (Nat × α)} {k : Nat} (v : α)
    (h : lookupEntry m k = none) : mapEmplace m k v = m ++ [(k, v)] := by
  simp [mapEmplace, h]

theorem lookupEntry_map_of_mem {α : Type} {ids : List Nat} {k : Nat} (f : Nat → α)
    (hk : k ∈ ids) : lookupEntry (ids.map (fun i => (i, f i))) k = some (f k) := by
  induction ids with
  | nil => cases hk
  | cons i ids ih =>
    by_cases hik : i = k
    · subst hik
      simp [lookupEntry, List.find?]
    · have hk' : k ∈ ids := by
        cases hk with
        | head => exact absurd rfl hik
        | tail _ h => exact h
      have hbe : (i == k) = false := by simpa using hik
      have := ih hk'
      simp only [List.map_cons, lookupEntry, List.find?, hbe]
      simpa [lookupEntry] using this

theorem lookupEntry_mem {α : Type} {m : List (Nat × α)} {k : Nat} {v : α}
    (h : lookupEntry m k = some v) : (k, v) ∈ m := by
  unfold lookupEntry at h
  cases hf : List.find? (fun entry => entry.1 == k) m with
  | none => rw [hf] at h; simp at h
  | some p =>
    rw [hf] at h
    have hpv : p.2 = v := by simpa using h
    have hmem := List.mem_of_find?_eq_some hf
    have hprop := List.find?_some hf
    have hpk : p.1 = k := by simpa using hprop
    cases p with
    | mk a b =>
      simp only at hpv hpk
      subst hpv
      subst hpk
      exact hmem

theorem lookupEntry_of_mem_nodup {α : Type} {m : List (Nat × α)} {k : Nat} {v : α}
    (hmem : (k, v) ∈ m) (hnd : (mapKeys m).Nodup) : lookupEntry m k = some v := by
  induction m with
  | nil => cases hmem
  | cons e m ih =>
    obtain ⟨a, b⟩ := e
    have hnd' : a ∉ List.map (fun e => e.1) m ∧ (List.map (fun e => e.1) m).Nodup := by
      simpa [mapKeys] using hnd
    rcases List.mem_cons.mp hmem with heq | hm
    · cases heq
      simp [lookupEntry, List.find?]
    · have hak : a ≠ k := by
        intro h
        exact hnd'.1 (by rw [h]; exact List.mem_map.mpr ⟨(k, v), hm, rfl⟩)
      have hbe : (a == k) = false := by simpa using hak
      have := ih hm (by simpa [mapKeys] using hnd'.2)
      simp only [lookupEntry, List.find?, hbe]
      simpa [lookupEntry] using this

/-! ### Page-loop and compression-fold lemmas -/

theorem visitPages_eq (elemSize : Nat) (pages : List RPageInfo) :
    ∀ a b c, visitPages elemSize pages a b c =
      (a + pagesOnDiskSum pages, b + pagesOnDiskSum pages, c + pagesInMemSum elemSize pages) := by
  induction pages with
  | nil => intro a b c; simp [visitPages, pagesOnDiskSum, pagesInMemSum]
  | cons p ps ih =>
    intro a b c
    simp only [visitPages, ih, pagesOnDiskSum, pagesInMemSum, List.map, List.sum_cons,
      Prod.mk.injEq]
    omega

theorem pagesInMemSum_eq (elemSize : Nat) (pages : List RPageInfo) :
    pagesInMemSum elemSize pages = pagesElemSum pages * elemSize := by
  induction pages with
  | nil => simp [pagesInMemSum, pagesElemSum]
  | cons p ps ih =>
    simp [pagesInMemSum, pagesElemSum, Nat.add_mul] at *
    omega

theorem compressionFold_append (a b : List Int) :
    ∀ current, compressionFold current (a ++ b) =
      match compressionFold current a with
      | .error e => .error e
      | .ok v => compressionFold v b := by
  induction a with
  | nil => intro current; simp [compressionFold]
  | cons x xs ih =>
    intro current
    simp only [List.cons_append, compressionFold]
    cases checkCompression current x with
    | error e => simp
    | ok v => simpa using ih v

theorem compressionFold_sentinel {pre : List Int} (hpre : ∀ x ∈ pre, x = -1) :
    ∀ rest, compressionFold (-1) (pre ++ rest) = compressionFold (-1) rest := by
  induction pre with
  | nil => intro rest; simp
  | cons x xs ih =>
    intro rest
    have hx : x = -1 := hpre x (List.mem_cons_self x xs)
    simp only [List.cons_append, compressionFold, checkCompression, hx]
    simpa using ih (fun y hy => hpre y (List.mem_cons_of_mem x hy)) rest

theorem compressionFold_const {v : Int} (hv : v ≠ -1) :
    ∀ suf u, compressionFold v suf = .ok u → u = v ∧ ∀ w ∈ suf, w = v := by
  intro suf
  induction suf with
  | nil =>
    intro u h
    simp only [compressionFold, Except.ok.injEq] at h
    simp [h]
  | cons w ws ih =>
    intro u h
    simp only [compressionFold, checkCompression] at h
    have hvne : (v == -1) = false := by simpa using hv
    simp only [hvne, Bool.false_eq_true, if_false] at h
    cases hw : (w == v) with
    | false => simp [hw] at h
    | true =>
      simp only [hw, if_true] at h
      have hwv : w = v := by simpa using hw
      rcases ih u h with ⟨h1, h2⟩
      exact ⟨h1, by
        intro z hz
        cases hz with
        | head => exact hwv
        | tail _ hz => exact h2 z hz⟩

theorem compressionFold_mismatch {v : Int} (hv : v ≠ -1) :
    ∀ suf, (∃ w ∈ suf, w ≠ v) → compressionFold v suf = .error .invariantViolation := by
  intro suf
  induction suf with
  | nil => rintro ⟨w, hw, _⟩; cases hw
  | cons w ws ih =>
    rintro ⟨z, hz, hzv⟩
    have hvne : (v == -1) = false := by simpa using hv
    simp only [compressionFold, checkCompression, hvne, Bool.false_eq_true, if_false]
    cases hw : (w == v) with
    | false => simp
    | true =>
      have hwv : w = v := by simpa using hw
      simp only [if_true]
      apply ih
      refine ⟨z, ?_, hzv⟩
      cases hz with
      | head => exact absurd hwv hzv
      | tail _ hz => exact hz

/-! ### Cluster-loop and column-loop characterization -/

theorem visitClusters_ok (elemSize colId : Nat) :
    ∀ (clusters : List RClusterDescriptor) (nElems onDiskSize : Nat) (st : CollectState)
      (r : Nat × Nat × CollectState),
      visitClusters elemSize colId clusters nElems onDiskSize st = .ok r →
      r.1 = nElems + ((clusters.filter (fun c => c.ContainsColumn colId)).map
          (fun c => (c.GetColumnRange colId).fNElements)).sum ∧
      r.2.1 = onDiskSize + ((clusters.filter (fun c => c.ContainsColumn colId)).map
          (fun c => pagesOnDiskSum (c.GetPageRange colId))).sum ∧
      r.2.2.fOnDiskSize = st.fOnDiskSize + ((clusters.filter (fun c => c.ContainsColumn colId)).map
          (fun c => pagesOnDiskSum (c.GetPageRange colId))).sum ∧
      r.2.2.fInMemorySize = st.fInMemorySize +
        ((clusters.filter (fun c => c.ContainsColumn colId)).map
          (fun c => pagesInMemSum elemSize (c.GetPageRange colId))).sum ∧
      r.2.2.fColumnInfo = st.fColumnInfo := by
  intro clusters
  induction clusters with
  | nil =>
    intro nE oD st r h
    simp only [visitClusters, Except.ok.injEq] at h
    subst h
    simp
  | cons c cs ih =>
    intro nE oD st r h
    cases hc : c.ContainsColumn colId with
    | false =>
      simp only [visitClusters, hc, Bool.false_eq_true, if_false] at h
      have := ih nE oD st r h
      simpa [List.filter_cons, hc] using this
    | true =>
      simp only [visitClusters, hc, if_true] at h
      cases hcc : checkCompression st.fCompressionSettings
          (c.GetColumnRange colId).fCompressionSettings with
      | error e => rw [hcc] at h; cases h
      | ok v =>
        rw [hcc] at h
        simp only [visitPages_eq] at h
        have := ih _ _ _ _ h
        simp only [List.filter_cons, hc, if_true, List.map_cons, List.sum_cons] at *
        refine ⟨by omega, by omega, ?_, ?_, ?_⟩
        · have h3 := this.2.2.1
          simp only at h3
          omega
        · have h4 := this.2.2.2.1
          simp only at h4
          omega
        · have h5 := this.2.2.2.2
          simpa using h5

theorem visitClusters_compression (elemSize colId : Nat) :
    ∀ (clusters : List RClusterDescriptor) (nElems onDiskSize : Nat) (st : CollectState),
      (∀ e, visitClusters elemSize colId clusters nElems onDiskSize st = .error e ↔
        compressionFold st.fCompressionSettings (clusterCompressions colId clusters) =
          .error e) ∧
      (∀ r, visitClusters elemSize colId clusters nElems onDiskSize st = .ok r →
        compressionFold st.fCompressionSettings (clusterCompressions colId clusters) =
          .ok r.2.2.fCompressionSettings) := by
  intro clusters
  induction clusters with
  | nil =>
    intro nE oD st
    constructor
    · intro e
      simp [visitClusters, clusterCompressions, compressionFold]
    · intro r h
      simp only [visitClusters, Except.ok.injEq] at h
      subst h
      simp [clusterCompressions, compressionFold]
  | cons c cs ih =>
    intro nE oD st
    cases hc : c.ContainsColumn colId with
    | false =>
      have := ih nE oD st
      constructor
      · intro e
        simpa [visitClusters, hc, clusterCompressions, List.filter_cons] using (this.1 e)
      · intro r h
        simp only [visitClusters, hc, Bool.false_eq_true, if_false] at h
        simpa [clusterCompressions, List.filter_cons, hc] using this.2 r h
    | true =>
      cases hcc : checkCompression st.fCompressionSettings
          (c.GetColumnRange colId).fCompressionSettings with
      | error e0 =>
        have hcl : clusterCompressions colId (c :: cs) =
            (c.GetColumnRange colId).fCompressionSettings :: clusterCompressions colId cs := by
          simp [clusterCompressions, List.filter_cons, hc]
        constructor
        · intro e
          rw [hcl]
          simp [visitClusters, hc, hcc, compressionFold]
        · intro r h
          simp only [visitClusters, hc, if_true, hcc] at h
          cases h
      | ok v =>
        have hcl : clusterCompressions colId (c :: cs) =
            (c.GetColumnRange colId).fCompressionSettings :: clusterCompressions colId cs := by
          simp [clusterCompressions, List.filter_cons, hc]
        constructor
        · intro e
          simp only [visitClusters, hc, if_true, hcc, visitPages_eq]
          rw [hcl]
          simp only [compressionFold, hcc]
          exact (ih _ _ _).1 e
        · intro r h
          simp only [visitClusters, hc, if_true, hcc, visitPages_eq] at h
          rw [hcl]
          simp only [compressionFold, hcc]
          exact (ih _ _ _).2 r h

theorem processColumn_ok (desc : RNTupleDescriptor) (st : CollectState) (colId : Nat)
    (st' : CollectState) (h : processColumn desc st colId = .ok st') :
    st'.fColumnInfo = mapEmplace st.fColumnInfo colId (mkColumnInfo desc colId) ∧
    st'.fOnDiskSize = st.fOnDiskSize + columnOnDiskSum desc colId ∧
    st'.fInMemorySize = st.fInMemorySize + columnInMemSum desc colId ∧
    compressionFold st.fCompressionSettings (clusterCompressions colId desc.clusters) =
      .ok st'.fCompressionSettings := by
  simp only [processColumn] at h
  cases hv : visitClusters (desc.elemSizeOf (desc.GetColumnDescriptor colId).colType) colId
      desc.clusters 0 0 st with
  | error e => rw [hv] at h; cases h
  | ok r =>
    rw [hv] at h
    simp only [Except.ok.injEq] at h
    subst h
    obtain ⟨h1, h2, h3, h4, h5⟩ := visitClusters_ok _ _ _ _ _ _ _ hv
    have hcomp := (visitClusters_compression _ colId desc.clusters 0 0 st).2 r hv
    refine ⟨?_, ?_, ?_, ?_⟩
    · simp only [h5]
      have : mkColumnInfo desc colId =
          { columnDescriptor := desc.GetColumnDescriptor colId, fOnDiskSize := r.2.1,
            fElementSize := desc.elemSizeOf (desc.GetColumnDescriptor colId).colType,
            fNElements := r.1 } := by
        simp [mkColumnInfo, columnOnDiskSum, columnElemSum, columnElementSize,
          containingClusters, h1, h2]
      rw [this]
    · simpa [columnOnDiskSum, containingClusters] using h3
    · simpa [columnInMemSum, containingClusters, columnElementSize] using h4
    · simpa using hcomp

theorem processColumn_error (desc : RNTupleDescriptor) (st : CollectState) (colId : Nat)
    (e : ErrKind) :
    processColumn desc st colId = .error e ↔
      compressionFold st.fCompressionSettings (clusterCompressions colId desc.clusters) =
        .error e := by
  simp only [processColumn]
  cases hv : visitClusters (desc.elemSizeOf (desc.GetColumnDescriptor colId).colType) colId
      desc.clusters 0 0 st with
  | error e0 =>
    have := (visitClusters_compression (desc.elemSizeOf (desc.GetColumnDescriptor colId).colType)
      colId desc.clusters 0 0 st).1
    constructor
    · intro h
      simp only [Except.error.injEq] at h
      rw [← h]
      exact (this e0).mp hv
    · intro h
      have he0 := (this e0).mp hv
      rw [he0] at h
      simp only [Except.error.injEq] at h
      simp [h]
  | ok r =>
    have hcomp := (visitClusters_compression
      (desc.elemSizeOf (desc.GetColumnDescriptor colId).colType)
      colId desc.clusters 0 0 st).2 r hv
    constructor
    · intro h
      cases h
    · intro h
      rw [hcomp] at h
      cases h

theorem visitColumns_ok (desc : RNTupleDescriptor) :
    ∀ (ids : List Nat) (st st' : CollectState),
      ids.Nodup → (∀ i ∈ ids, lookupEntry st.fColumnInfo i = none) →
      visitColumns desc ids st = .ok st' →
      st'.fColumnInfo = st.fColumnInfo ++ idColumnInfoMap desc ids ∧
      st'.fOnDiskSize = st.fOnDiskSize + (ids.map (fun i => columnOnDiskSum desc i)).sum ∧
      st'.fInMemorySize = st.fInMemorySize + (ids.map (fun i => columnInMemSum desc i)).sum ∧
      compressionFold st.fCompressionSettings
        ((ids.map (fun i => clusterCompressions i desc.clusters)).flatten) =
        .ok st'.fCompressionSettings := by
  intro ids
  induction ids with
  | nil =>
    intro st st' _ _ h
    simp only [visitColumns, Except.ok.injEq] at h
    subst h
    simp [idColumnInfoMap, compressionFold]
  | cons i ids ih =>
    intro st st' hnd hfresh h
    simp only [visitColumns] at h
    cases hp : processColumn desc st i with
    | error e => rw [hp] at h; cases h
    | ok st1 =>
      rw [hp] at h
      obtain ⟨p1, p2, p3, p4⟩ := processColumn_ok desc st i st1 hp
      have hfresh_i : lookupEntry st.fColumnInfo i = none :=
        hfresh i (List.mem_cons_self i ids)
      have hst1 : st1.fColumnInfo = st.fColumnInfo ++ [(i, mkColumnInfo desc i)] := by
        rw [p1, mapEmplace_of_absent _ hfresh_i]
      have hnd' : ids.Nodup := (List.nodup_cons.mp hnd).2
      have hnotmem : i ∉ ids := (List.nodup_cons.mp hnd).1
      have hfresh' : ∀ j ∈ ids, lookupEntry st1.fColumnInfo j = none := by
        intro j hj
        rw [hst1, lookupEntry_append_of_none _ (hfresh j (List.mem_cons_of_mem i hj))]
        exact lookupEntry_singleton_ne _ (fun hij => hnotmem (hij ▸ hj))
      obtain ⟨q1, q2, q3, q4⟩ := ih st1 st' hnd' hfresh' h
      refine ⟨?_, by simp only [List.map_cons, List.sum_cons]; omega,
        by simp only [List.map_cons, List.sum_cons]; omega, ?_⟩
      · rw [q1, hst1, List.append_assoc]
        simp [idColumnInfoMap]
      · simp only [List.map_cons, List.flatten_cons]
        rw [compressionFold_append]
        rw [p4]
        exact q4

theorem visitColumns_error (desc : RNTupleDescriptor) :
    ∀ (ids : List Nat) (st : CollectState) (e : ErrKind),
      visitColumns desc ids st = .error e ↔
        compressionFold st.fCompressionSettings
          ((ids.map (fun i => clusterCompressions i desc.clusters)).flatten) = .error e := by
  intro ids
  induction ids with
  | nil =>
    intro st e
    simp [visitColumns, compressionFold]
  | cons i ids ih =>
    intro st e
    simp only [visitColumns, List.map_cons, List.flatten_cons]
    rw [compressionFold_append]
    cases hp : processColumn desc st i with
    | error e0 =>
      have he0 := (processColumn_error desc st i e0).mp hp
      rw [he0]
      constructor
      · intro h
        simp only [Except.error.injEq] at h
        simp [h]
      · intro h
        simp only [Except.error.injEq] at h
        simp [h]
    | ok st1 =>
      have := (processColumn_ok desc st i st1 hp).2.2.2
      rw [this]
      exact ih st1 e

theorem collectColumnInfo_ok (desc : RNTupleDescriptor) (st : CollectState)
    (h : CollectColumnInfo desc = .ok st) :
    st.fColumnInfo = idColumnInfoMap desc (List.range desc.GetNPhysicalColumns) ∧
    st.fOnDiskSize = ((List.range desc.GetNPhysicalColumns).map
      (fun i => columnOnDiskSum desc i)).sum ∧
    st.fInMemorySize = ((List.range desc.GetNPhysicalColumns).map
      (fun i => columnInMemSum desc i)).sum ∧
    compressionFold (-1) (visitedCompressions desc) = .ok st.fCompressionSettings := by
  have := visitColumns_ok desc (List.range desc.GetNPhysicalColumns)
    { fCompressionSettings := -1, fOnDiskSize := 0, fInMemorySize := 0, fColumnInfo := [] } st
    (List.nodup_range _) (by intro i _; exact lookupEntry_nil i) h
  simpa [visitedCompressions] using this

theorem collectColumnInfo_error (desc : RNTupleDescriptor) (e : ErrKind) :
    CollectColumnInfo desc = .error e ↔
      compressionFold (-1) (visitedCompressions desc) = .error e := by
  have := visitColumns_error desc (List.range desc.GetNPhysicalColumns)
    { fCompressionSettings := -1, fOnDiskSize := 0, fInMemorySize := 0, fColumnInfo := [] } e
  simpa [CollectColumnInfo, visitedCompressions] using this

/-! ### Construction glue -/

theorem create_ok_inv (desc : RNTupleDescriptor) (insp : RNTupleInspector)
    (h : Create desc = .ok insp) :
    ∃ st ri, CollectColumnInfo desc = .ok st ∧
      CollectFieldInfo desc st.fColumnInfo desc.fieldZero [] = .ok (ri, insp.fFieldInfo) ∧
      insp.fDescriptor = desc ∧ insp.fColumnInfo = st.fColumnInfo ∧
      insp.fOnDiskSize = st.fOnDiskSize ∧ insp.fInMemorySize = st.fInMemorySize ∧
      insp.fCompressionSettings = st.fCompressionSettings := by
  unfold Create at h
  split at h
  · cases h
  · rename_i st hc
    split at h
    · cases h
    · rename_i ri fmap hf
      simp only [Except.ok.injEq] at h
      subst h
      exact ⟨st, ri, hc, hf, rfl, rfl, rfl, rfl, rfl⟩

theorem create_error_of_collect (desc : RNTupleDescriptor) (e : ErrKind)
    (h : CollectColumnInfo desc = .error e) : Create desc = .error e := by
  unfold Create
  rw [h]

/-! ### Claim theorems: column statistics -/

/-- C3: for every physical column, after the one-time collection pass the
stored `RColumnInfo` has an on-disk size equal to the sum of bytes-on-storage
over every page of every cluster that contains the column, and an element
count equal to the sum of the cluster column-range element counts over every
cluster that contains it. -/
theorem columnInfo_onDisk_and_elementCount (desc : RNTupleDescriptor) (st : CollectState)
    (colId : Nat) (hok : CollectColumnInfo desc = .ok st)
    (hlt : colId < desc.GetNPhysicalColumns) :
    ∃ ci, lookupEntry st.fColumnInfo colId = some ci ∧
      ci.GetOnDiskSize = columnOnDiskSum desc colId ∧
      ci.fNElements = columnElemSum desc colId := by
  obtain ⟨h1, _, _, _⟩ := collectColumnInfo_ok desc st hok
  refine ⟨mkColumnInfo desc colId, ?_, rfl, rfl⟩
  rw [h1]
  simp only [idColumnInfoMap]
  exact lookupEntry_map_of_mem _ (List.mem_range.mpr hlt)

/-- Witness for C3: the first column of the example source. -/
theorem columnInfo_onDisk_and_elementCount_witness :
    ∃ st, CollectColumnInfo exampleDescriptor = .ok st ∧
      ∃ ci, lookupEntry st.fColumnInfo 0 = some ci ∧
        ci.GetOnDiskSize = columnOnDiskSum exampleDescriptor 0 ∧
        ci.fNElements = columnElemSum exampleDescriptor 0 := by
  refine ⟨_, rfl, ?_⟩
  exact columnInfo_onDisk_and_elementCount exampleDescriptor _ 0 rfl (by decide)

/-- C7: for every physical column whose per-cluster page element counts are
consistent with the cluster column ranges, the stored `RColumnInfo` reports an
in-memory size equal to the sum over the column's pages of the page element
count times the default in-memory element size of the column's type. -/
theorem columnInfo_inMemorySize (desc : RNTupleDescriptor) (st : CollectState) (colId : Nat)
    (hok : CollectColumnInfo desc = .ok st) (hlt : colId < desc.GetNPhysicalColumns)
    (hcons : ∀ cl ∈ desc.clusters, cl.ContainsColumn colId = true →
      pagesElemSum (cl.GetPageRange colId) = (cl.GetColumnRange colId).fNElements) :
    ∃ ci, lookupEntry st.fColumnInfo colId = some ci ∧
      ci.GetInMemorySize = columnInMemSum desc colId := by
  obtain ⟨h1, _, _, _⟩ := collectColumnInfo_ok desc st hok
  refine ⟨mkColumnInfo desc colId, ?_, ?_⟩
  · rw [h1]
    simp only [idColumnInfoMap]
    exact lookupEntry_map_of_mem _ (List.mem_range.mpr hlt)
  · have hmap : (desc.clusters.filter (fun c => c.ContainsColumn colId)).map
        (fun c => pagesInMemSum (columnElementSize desc colId) (c.GetPageRange colId)) =
        (desc.clusters.filter (fun c => c.ContainsColumn colId)).map
        (fun c => (c.GetColumnRange colId).fNElements * columnElementSize desc colId) := by
      apply List.map_congr_left
      intro c hc
      obtain ⟨hm, hp⟩ := List.mem_filter.mp hc
      rw [pagesInMemSum_eq, hcons c hm (by simpa using hp)]
    have hsum : columnInMemSum desc colId =
        columnElemSum desc colId * columnElementSize desc colId := by
      unfold columnInMemSum columnElemSum containingClusters
      rw [hmap, List.sum_map_mul_right]
    rw [hsum]
    simp [mkColumnInfo, RColumnInfo.GetInMemorySize, Nat.mul_comm]

/-- Witness for C7: the second column of the example source. -/
theorem columnInfo_inMemorySize_witness :
    ∃ st, CollectColumnInfo exampleDescriptor = .ok st ∧
      ∃ ci, lookupEntry st.fColumnInfo 1 = some ci ∧
        ci.GetInMemorySize = columnInMemSum exampleDescriptor 1 := by
  refine ⟨_, rfl, ?_⟩
  exact columnInfo_inMemorySize exampleDescriptor _ 1 rfl (by decide) (by decide)

/-- C5: all physical columns of one source share one compression setting: the
first non-sentinel value observed while visiting the cluster column ranges
becomes the source-wide setting, every subsequently visited range is checked
against it, and any mismatch makes construction fail with InvariantViolation
instead of producing an inspector. -/
theorem compression_uniform_enforced (desc : RNTupleDescriptor) (pre suf : List Int) (v : Int)
    (hseq : visitedCompressions desc = pre ++ v :: suf)
    (hpre : ∀ x ∈ pre, x = -1) (hv : v ≠ -1) :
    (∀ insp, Create desc = .ok insp →
      insp.fCompressionSettings = v ∧ ∀ w ∈ suf, w = v) ∧
    ((∃ w ∈ suf, w ≠ v) → Create desc = .error .invariantViolation) := by
  have hfold : compressionFold (-1) (visitedCompressions desc) = compressionFold v suf := by
    rw [hseq, compressionFold_sentinel hpre]
    simp [compressionFold, checkCompression]
  constructor
  · intro insp hok
    obtain ⟨st, ri, hc, _, _, _, _, _, hcomp⟩ := create_ok_inv desc insp hok
    obtain ⟨_, _, _, h4⟩ := collectColumnInfo_ok desc st hc
    rw [hfold] at h4
    obtain ⟨hu, hall⟩ := compressionFold_const hv suf _ h4
    exact ⟨by rw [hcomp]; exact hu, hall⟩
  · intro hmis
    have hm := compressionFold_mismatch hv suf hmis
    have hcollect : CollectColumnInfo desc = .error .invariantViolation :=
      (collectColumnInfo_error desc _).mpr (by rw [hfold]; exact hm)
    exact create_error_of_collect desc _ hcollect

/-- Witness for C5: the source whose two columns report compression settings
5 and 7 fails construction with InvariantViolation. -/
theorem compression_uniform_enforced_witness :
    Create mismatchDescriptor = .error .invariantViolation := by
  have h := compression_uniform_enforced mismatchDescriptor [] [7] 5 (by rfl)
    (by intro x hx; cases hx) (by decide)
  exact h.2 ⟨7, List.mem_singleton.mpr rfl, by decide⟩

/-- C9: constructing an inspector from a null ntuple handle fails with
NullInput (the check precedes every descriptor access, so the failure is
independent of any descriptor) and no inspector object is produced. -/
theorem create_from_null_ntuple : CreateFromNTuple none = .error .nullInput := rfl

/-- C4 evaluation at the failing boundary: over a source with one physical
column, lookup at id = count-1 = 0 succeeds, lookup at id = count = 1 slips
past the strict `>` guard and fails inside `fColumnInfo.at` with the raw
std::out_of_range failure rather than the descriptive NotFound one the claim
requires, and lookup at id = count+1 = 2 fails with NotFound. -/
theorem getColumnInfo_boundary :
    ∃ insp ci, Create singleColumnDescriptor = .ok insp ∧
      insp.GetColumnInfo 0 = .ok ci ∧
      insp.GetColumnInfo 1 = .error .stdOutOfRange ∧
      insp.GetColumnInfo 2 = .error .notFound :=
  ⟨_, _, rfl, rfl, rfl, rfl⟩

/-! ### Field-tree machinery: map and subtree utilities -/

theorem mem_keys_of_lookup {α : Type} {m : List (Nat × α)} {k : Nat} {v : α}
    (h : lookupEntry m k = some v) : k ∈ mapKeys m :=
  List.mem_map.mpr ⟨(k, v), lookupEntry_mem h, rfl⟩

theorem lookupEntry_eq_none {α : Type} {m : List (Nat × α)} {k : Nat}
    (h : k ∉ mapKeys m) : lookupEntry m k = none := by
  cases hl : lookupEntry m k with
  | none => rfl
  | some v => exact absurd (mem_keys_of_lookup hl) h

theorem mapEmplace_cases {α : Type} (m : List (Nat × α)) (k : Nat) (v : α) :
    mapEmplace m k v = m ∨ mapEmplace m k v = m ++ [(k, v)] := by
  unfold mapEmplace
  split
  · exact Or.inl rfl
  · exact Or.inr rfl

theorem mem_mapEmplace_of_mem {α : Type} {m : List (Nat × α)} {e : Nat × α} (k : Nat) (v : α)
    (h : e ∈ m) : e ∈ mapEmplace m k v := by
  rcases mapEmplace_cases m k v with hc | hc
  · rw [hc]; exact h
  · rw [hc]; exact List.mem_append_left _ h

theorem mapEmplace_append_left {α : Type} {pre m : List (Nat × α)} {k : Nat} (v : α)
    (h : k ∉ mapKeys pre) : mapEmplace (pre ++ m) k v = pre ++ mapEmplace m k v := by
  have hpre : lookupEntry pre k = none := lookupEntry_eq_none h
  unfold mapEmplace
  rw [lookupEntry_append_of_none _ hpre]
  cases hl : lookupEntry m k with
  | some v' => simp only
  | none => exact List.append_assoc pre m [(k, v)]

theorem IsSubtree.trans {a b c : RFieldTree} (hab : IsSubtree a b) (hbc : IsSubtree b c) :
    IsSubtree a c := by
  induction hbc with
  | refl => exact hab
  | step h hmem ih => exact IsSubtree.step ih hmem

mutual
theorem fieldIds_eq_map (t : RFieldTree) :
    t.fieldIds = t.fieldDescs.map (fun fd => fd.fieldId) := by
  cases t with
  | node fd cols chs =>
    simp only [RFieldTree.fieldIds, RFieldTree.fieldDescs, List.map_cons,
      fieldIdsList_eq_map chs]

theorem fieldIdsList_eq_map (ts : List RFieldTree) :
    fieldIdsList ts = (fieldDescsList ts).map (fun fd => fd.fieldId) := by
  cases ts with
  | nil => simp [fieldIdsList, fieldDescsList]
  | cons t ts =>
    simp only [fieldIdsList, fieldDescsList, List.map_append,
      fieldIds_eq_map t, fieldIdsList_eq_map ts]
end

theorem fieldIds_sublist_of_mem {c : RFieldTree} :
    ∀ {ts : List RFieldTree}, c ∈ ts → c.fieldIds.Sublist (fieldIdsList ts) := by
  intro ts h
  induction ts with
  | nil => cases h
  | cons t ts ih =>
    rcases List.mem_cons.mp h with rfl | hm
    · simp only [fieldIdsList]
      exact List.sublist_append_left _ _
    · simp only [fieldIdsList]
      exact (ih hm).trans (List.sublist_append_right _ _)

theorem fieldIdsList_children_sublist (t : RFieldTree) :
    (fieldIdsList t.children).Sublist t.fieldIds := by
  cases t with
  | node fd cols chs =>
    simp only [RFieldTree.children, RFieldTree.fieldIds]
    exact List.sublist_cons_self _ _

theorem nodup_of_subtree {s r : RFieldTree} (hsub : IsSubtree s r)
    (hnd : r.fieldIds.Nodup) : s.fieldIds.Nodup := by
  induction hsub with
  | refl => exact hnd
  | step h hmem ih =>
    exact ih (((fieldIds_sublist_of_mem hmem).trans
      (fieldIdsList_children_sublist _)).nodup hnd)

/-! ### Field-tree machinery: column sums of one field -/

theorem getColumnInfoAux_ok (desc : RNTupleDescriptor) (colMap : List (Nat × RColumnInfo))
    (id : Nat) (ci : RColumnInfo) (h : getColumnInfoAux desc colMap id = .ok ci) :
    lookupEntry colMap id = some ci := by
  unfold getColumnInfoAux at h
  split at h
  · cases h
  · split at h
    · rename_i v hl
      simp only [Except.ok.injEq] at h
      rw [hl, h]
    · cases h

theorem sumColumnSizes_ok (desc : RNTupleDescriptor) (colMap : List (Nat × RColumnInfo)) :
    ∀ (cols : List RColumnDescriptor) (a b : Nat) (r : Nat × Nat),
      sumColumnSizes desc colMap a b cols = .ok r →
      (∀ c ∈ cols, ∃ ci, lookupEntry colMap c.physicalId = some ci) ∧
      r.1 = a + columnsOnDiskSum colMap cols ∧
      r.2 = b + columnsInMemSum colMap cols := by
  intro cols
  induction cols with
  | nil =>
    intro a b r h
    simp only [sumColumnSizes, Except.ok.injEq] at h
    subst h
    simp [columnsOnDiskSum, columnsInMemSum]
  | cons c cs ih =>
    intro a b r h
    simp only [sumColumnSizes] at h
    cases hg : getColumnInfoAux desc colMap c.physicalId with
    | error e => simp only [hg] at h; exact absurd h (by simp)
    | ok ci =>
      simp only [hg] at h
      obtain ⟨hmem, h1, h2⟩ := ih _ _ _ h
      have hlook := getColumnInfoAux_ok desc colMap c.physicalId ci hg
      have hhead1 : storedOnDiskSize colMap c.physicalId = ci.GetOnDiskSize := by
        simp [storedOnDiskSize, hlook]
      have hhead2 : storedInMemSize colMap c.physicalId = ci.GetInMemorySize := by
        simp [storedInMemSize, hlook]
      refine ⟨?_, ?_, ?_⟩
      · intro x hx
        rcases List.mem_cons.mp hx with rfl | hxm
        · exact ⟨ci, hlook⟩
        · exact hmem x hxm
      · have hcons : columnsOnDiskSum colMap (c :: cs) =
            ci.GetOnDiskSize + columnsOnDiskSum colMap cs := by
          simp only [columnsOnDiskSum, List.map_cons, List.sum_cons]
          rw [hhead1]
        rw [hcons]
        omega
      · have hcons : columnsInMemSum colMap (c :: cs) =
            ci.GetInMemorySize + columnsInMemSum colMap cs := by
          simp only [columnsInMemSum, List.map_cons, List.sum_cons]
          rw [hhead2]
        rw [hcons]
        omega

/-! ### Field-tree machinery: the collected map extends its input -/

mutual
theorem collectFieldInfo_extend (desc : RNTupleDescriptor) (colMap : List (Nat × RColumnInfo))
    (t : RFieldTree) :
    ∀ (fmap : List (Nat × RFieldTreeInfo)) (ri : RFieldTreeInfo)
      (m : List (Nat × RFieldTreeInfo)),
      CollectFieldInfo desc colMap t fmap = .ok (ri, m) →
      ∃ l, m = fmap ++ l ∧ ∀ k ∈ mapKeys l, k ∈ t.fieldIds := by
  cases t with
  | node fd cols chs =>
    intro fmap ri m h
    simp only [CollectFieldInfo] at h
    cases hs : sumColumnSizes desc colMap 0 0 cols with
    | error e => simp only [hs] at h; exact absurd h (by simp)
    | ok ab =>
      obtain ⟨a, b⟩ := ab
      simp only [hs] at h
      cases hcs : CollectSubFields desc colMap chs fmap a b with
      | error e => simp only [hcs] at h; exact absurd h (by simp)
      | ok r =>
        obtain ⟨a2, b2, m2⟩ := r
        simp only [hcs, Except.ok.injEq, Prod.mk.injEq] at h
        obtain ⟨hri, hm⟩ := h
        obtain ⟨l2, hl2, hk2⟩ := collectSubFields_extend desc colMap chs fmap a b _ hcs
        simp only at hl2
        subst hl2
        rcases mapEmplace_cases (fmap ++ l2) fd.fieldId
            { fieldDescriptor := fd, fOnDiskSize := a2, fInMemorySize := b2 } with he | he
        · refine ⟨l2, ?_, ?_⟩
          · rw [← hm, he]
          · intro k hk
            simp only [RFieldTree.fieldIds]
            exact List.mem_cons_of_mem _ (hk2 k hk)
        · refine ⟨l2 ++ [(fd.fieldId,
            { fieldDescriptor := fd, fOnDiskSize := a2, fInMemorySize := b2 })], ?_, ?_⟩
          · rw [← hm, he, List.append_assoc]
          · intro k hk
            simp only [mapKeys, List.map_append, List.mem_append] at hk
            rcases hk with hk | hk
            · simp only [RFieldTree.fieldIds]
              exact List.mem_cons_of_mem _ (hk2 k hk)
            · simp only [List.map_cons, List.map_nil, List.mem_singleton] at hk
              subst hk
              simp [RFieldTree.fieldIds]

theorem collectSubFields_extend (desc : RNTupleDescriptor) (colMap : List (Nat × RColumnInfo))
    (ts : List RFieldTree) :
    ∀ (fmap : List (Nat × RFieldTreeInfo)) (a b : Nat)
      (r : Nat × Nat × List (Nat × RFieldTreeInfo)),
      CollectSubFields desc colMap ts fmap a b = .ok r →
      ∃ l, r.2.2 = fmap ++ l ∧ ∀ k ∈ mapKeys l, k ∈ fieldIdsList ts := by
  cases ts with
  | nil =>
    intro fmap a b r h
    simp only [CollectSubFields, Except.ok.injEq] at h
    subst h
    exact ⟨[], by simp, by intro k hk; cases hk⟩
  | cons t ts =>
    intro fmap a b r h
    simp only [CollectSubFields] at h
    cases hc : CollectFieldInfo desc colMap t fmap with
    | error e => simp only [hc] at h; exact absurd h (by simp)
    | ok p =>
      obtain ⟨i1, m1⟩ := p
      simp only [hc] at h
      obtain ⟨l1, hl1, hk1⟩ := collectFieldInfo_extend desc colMap t fmap i1 m1 hc
      obtain ⟨l2, hl2, hk2⟩ := collectSubFields_extend desc colMap ts m1
        (a + i1.GetOnDiskSize) (b + i1.GetInMemorySize) r h
      refine ⟨l1 ++ l2, ?_, ?_⟩
      · rw [hl2, hl1, List.append_assoc]
      · intro k hk
        simp only [mapKeys, List.map_append, List.mem_append] at hk
        simp only [fieldIdsList, List.mem_append]
        rcases hk with hk | hk
        · exact Or.inl (hk1 k hk)
        · exact Or.inr (hk2 k hk)
end

/-! ### Field-tree machinery: a disjoint map prefix passes through unchanged -/

mutual
theorem collectFieldInfo_shift (desc : RNTupleDescriptor) (colMap : List (Nat × RColumnInfo))
    (t : RFieldTree) :
    ∀ (pre fmap : List (Nat × RFieldTreeInfo)) (ri : RFieldTreeInfo)
      (m : List (Nat × RFieldTreeInfo)),
      (∀ k ∈ mapKeys pre, k ∉ t.fieldIds) →
      CollectFieldInfo desc colMap t (pre ++ fmap) = .ok (ri, m) →
      ∃ m2, CollectFieldInfo desc colMap t fmap = .ok (ri, m2) ∧ m = pre ++ m2 := by
  cases t with
  | node fd cols chs =>
    intro pre fmap ri m hdis h
    simp only [CollectFieldInfo] at h ⊢
    cases hs : sumColumnSizes desc colMap 0 0 cols with
    | error e => simp only [hs] at h; exact absurd h (by simp)
    | ok ab =>
      obtain ⟨a, b⟩ := ab
      simp only [hs] at h ⊢
      cases hcs : CollectSubFields desc colMap chs (pre ++ fmap) a b with
      | error e => simp only [hcs] at h; exact absurd h (by simp)
      | ok r =>
        obtain ⟨a2, b2, m2a⟩ := r
        simp only [hcs, Except.ok.injEq, Prod.mk.injEq] at h
        obtain ⟨hri, hm⟩ := h
        have hdis' : ∀ k ∈ mapKeys pre, k ∉ fieldIdsList chs := by
          intro k hk hmem
          exact hdis k hk (by simp only [RFieldTree.fieldIds]; exact List.mem_cons_of_mem _ hmem)
        obtain ⟨m2b, hrun, hsplit⟩ :=
          collectSubFields_shift desc colMap chs pre fmap a b _ hdis' hcs
        simp only at hrun hsplit
        rw [hrun]
        have hfd : fd.fieldId ∉ mapKeys pre := by
          intro hmem
          exact hdis _ hmem (by simp [RFieldTree.fieldIds])
        refine ⟨mapEmplace m2b fd.fieldId
          { fieldDescriptor := fd, fOnDiskSize := a2, fInMemorySize := b2 }, ?_, ?_⟩
        · rw [← hri]
        · rw [← hm, hsplit, mapEmplace_append_left _ hfd]

theorem collectSubFields_shift (desc : RNTupleDescriptor) (colMap : List (Nat × RColumnInfo))
    (ts : List RFieldTree) :
    ∀ (pre fmap : List (Nat × RFieldTreeInfo)) (a b : Nat)
      (r : Nat × Nat × List (Nat × RFieldTreeInfo)),
      (∀ k ∈ mapKeys pre, k ∉ fieldIdsList ts) →
      CollectSubFields desc colMap ts (pre ++ fmap) a b = .ok r →
      ∃ m2, CollectSubFields desc colMap ts fmap a b = .ok (r.1, r.2.1, m2) ∧
        r.2.2 = pre ++ m2 := by
  cases ts with
  | nil =>
    intro pre fmap a b r hdis h
    simp only [CollectSubFields, Except.ok.injEq] at h
    subst h
    exact ⟨fmap, rfl, rfl⟩
  | cons t ts =>
    intro pre fmap a b r hdis h
    simp only [CollectSubFields] at h ⊢
    cases hc : CollectFieldInfo desc colMap t (pre ++ fmap) with
    | error e => simp only [hc] at h; exact absurd h (by simp)
    | ok p =>
      obtain ⟨i1, m1a⟩ := p
      simp only [hc] at h
      have hdis_t : ∀ k ∈ mapKeys pre, k ∉ t.fieldIds := by
        intro k hk hmem
        exact hdis k hk (by simp only [fieldIdsList, List.mem_append]; exact Or.inl hmem)
      obtain ⟨m1b, hrun1, hsplit1⟩ := collectFieldInfo_shift desc colMap t pre fmap i1 m1a
        hdis_t hc
      rw [hrun1]
      have hdis_ts : ∀ k ∈ mapKeys pre, k ∉ fieldIdsList ts := by
        intro k hk hmem
        exact hdis k hk (by simp only [fieldIdsList, List.mem_append]; exact Or.inr hmem)
      rw [hsplit1] at h
      obtain ⟨m2, hrun2, hsplit2⟩ := collectSubFields_shift desc colMap ts pre m1b
        (a + i1.GetOnDiskSize) (b + i1.GetInMemorySize) r hdis_ts h
      exact ⟨m2, hrun2, hsplit2⟩
end

/-! ### Field-tree machinery: entries of the collected map -/

theorem keys_sub_of_entries {l : List (Nat × RFieldTreeInfo)} {ds : List RFieldDescriptor}
    (hperm : (l.map (fun e => e.2.fieldDescriptor)).Perm ds)
    (hkey : ∀ e ∈ l, e.1 = e.2.fieldDescriptor.fieldId) :
    ∀ k ∈ mapKeys l, k ∈ ds.map (fun fd => fd.fieldId) := by
  intro k hk
  obtain ⟨e, he, hek⟩ := List.mem_map.mp hk
  refine List.mem_map.mpr ⟨e.2.fieldDescriptor, hperm.subset (List.mem_map.mpr ⟨e, he, rfl⟩), ?_⟩
  rw [← hek, hkey e he]

mutual
theorem collectFieldInfo_entries (desc : RNTupleDescriptor) (colMap : List (Nat × RColumnInfo))
    (t : RFieldTree) :
    ∀ (fmap : List (Nat × RFieldTreeInfo)) (ri : RFieldTreeInfo)
      (m : List (Nat × RFieldTreeInfo)),
      CollectFieldInfo desc colMap t fmap = .ok (ri, m) →
      t.fieldIds.Nodup →
      (∀ k ∈ mapKeys fmap, k ∉ t.fieldIds) →
      ∃ l, m = fmap ++ l ∧
        (l.map (fun e => e.2.fieldDescriptor)).Perm t.fieldDescs ∧
        (∀ e ∈ l, e.1 = e.2.fieldDescriptor.fieldId) ∧
        (t.rootFieldId, ri) ∈ l ∧
        ri.fieldDescriptor = t.fd := by
  cases t with
  | node fd cols chs =>
    intro fmap ri m h hnd hdis
    simp only [CollectFieldInfo] at h
    cases hs : sumColumnSizes desc colMap 0 0 cols with
    | error e => simp only [hs] at h; exact absurd h (by simp)
    | ok ab =>
      obtain ⟨a, b⟩ := ab
      simp only [hs] at h
      cases hcs : CollectSubFields desc colMap chs fmap a b with
      | error e => simp only [hcs] at h; exact absurd h (by simp)
      | ok r =>
        obtain ⟨a2, b2, m2⟩ := r
        simp only [hcs, Except.ok.injEq, Prod.mk.injEq] at h
        obtain ⟨hri, hm⟩ := h
        have hnd_chs : (fieldIdsList chs).Nodup := by
          have := hnd
          simp only [RFieldTree.fieldIds, List.nodup_cons] at this
          exact this.2
        have hfd_not : fd.fieldId ∉ fieldIdsList chs := by
          have := hnd
          simp only [RFieldTree.fieldIds, List.nodup_cons] at this
          exact this.1
        have hdis' : ∀ k ∈ mapKeys fmap, k ∉ fieldIdsList chs := by
          intro k hk hmem
          exact hdis k hk (by simp only [RFieldTree.fieldIds]; exact List.mem_cons_of_mem _ hmem)
        obtain ⟨l2, hl2, hperm2, hkey2⟩ :=
          collectSubFields_entries desc colMap chs fmap a b _ hcs hnd_chs hdis'
        simp only at hl2
        have hkeys_l2 : ∀ k ∈ mapKeys l2, k ∈ fieldIdsList chs := by
          intro k hk
          have := keys_sub_of_entries hperm2 hkey2 k hk
          rwa [← fieldIdsList_eq_map] at this
        have hfresh : lookupEntry m2 fd.fieldId = none := by
          apply lookupEntry_eq_none
          rw [hl2]
          simp only [mapKeys, List.map_append, List.mem_append]
          rintro (hk | hk)
          · exact hdis _ hk (by simp [RFieldTree.fieldIds])
          · exact hfd_not (hkeys_l2 _ hk)
        have hemp := mapEmplace_of_absent
          { fieldDescriptor := fd, fOnDiskSize := a2, fInMemorySize := b2 } hfresh
        refine ⟨l2 ++ [(fd.fieldId,
          { fieldDescriptor := fd, fOnDiskSize := a2, fInMemorySize := b2 })], ?_, ?_, ?_, ?_, ?_⟩
        · rw [← hm, hemp, hl2, List.append_assoc]
        · simp only [List.map_append, List.map_cons, List.map_nil]
          refine (hperm2.append_right _).trans ?_
          simp only [RFieldTree.fieldDescs]
          exact List.perm_append_singleton _ _
        · intro e he
          rcases List.mem_append.mp he with he | he
          · exact hkey2 e he
          · simp only [List.mem_singleton] at he
            subst he
            rfl
        · rw [← hri]
          exact List.mem_append_right _ (by simp [RFieldTree.rootFieldId, RFieldTree.fd])
        · rw [← hri]
          rfl

theorem collectSubFields_entries (desc : RNTupleDescriptor) (colMap : List (Nat × RColumnInfo))
    (ts : List RFieldTree) :
    ∀ (fmap : List (Nat × RFieldTreeInfo)) (a b : Nat)
      (r : Nat × Nat × List (Nat × RFieldTreeInfo)),
      CollectSubFields desc colMap ts fmap a b = .ok r →
      (fieldIdsList ts).Nodup →
      (∀ k ∈ mapKeys fmap, k ∉ fieldIdsList ts) →
      ∃ l, r.2.2 = fmap ++ l ∧
        (l.map (fun e => e.2.fieldDescriptor)).Perm (fieldDescsList ts) ∧
        (∀ e ∈ l, e.1 = e.2.fieldDescriptor.fieldId) := by
  cases ts with
  | nil =>
    intro fmap a b r h _ _
    simp only [CollectSubFields, Except.ok.injEq] at h
    subst h
    exact ⟨[], by simp, by simp [fieldDescsList], by intro e he; cases he⟩
  | cons t ts =>
    intro fmap a b r h hnd hdis
    simp only [CollectSubFields] at h
    cases hc : CollectFieldInfo desc colMap t fmap with
    | error e => simp only [hc] at h; exact absurd h (by simp)
    | ok p =>
      obtain ⟨i1, m1⟩ := p
      simp only [hc] at h
      have hnd_app := hnd
      simp only [fieldIdsList, List.nodup_append] at hnd_app
      obtain ⟨hnd_t, hnd_ts, hdis_t_ts⟩ := hnd_app
      obtain ⟨l1, hl1, hperm1, hkey1, _, _⟩ := collectFieldInfo_entries desc colMap t fmap i1 m1
        hc hnd_t (by
          intro k hk hmem
          exact hdis k hk (by simp only [fieldIdsList, List.mem_append]; exact Or.inl hmem))
      have hkeys_l1 : ∀ k ∈ mapKeys l1, k ∈ t.fieldIds := by
        intro k hk
        have := keys_sub_of_entries hperm1 hkey1 k hk
        rwa [← fieldIds_eq_map] at this
      obtain ⟨l2, hl2, hperm2, hkey2⟩ := collectSubFields_entries desc colMap ts m1
        (a + i1.GetOnDiskSize) (b + i1.GetInMemorySize) r h hnd_ts (by
          intro k hk hmem
          rw [hl1] at hk
          simp only [mapKeys, List.map_append, List.mem_append] at hk
          rcases hk with hk | hk
          · exact hdis k hk (by simp only [fieldIdsList, List.mem_append]; exact Or.inr hmem)
          · exact hdis_t_ts (hkeys_l1 k hk) hmem)
      refine ⟨l1 ++ l2, ?_, ?_, ?_⟩
      · rw [hl2, hl1, List.append_assoc]
      · simp only [List.map_append, fieldDescsList]
        exact hperm1.append hperm2
      · intro e he
        rcases List.mem_append.mp he with he | he
        · exact hkey1 e he
        · exact hkey2 e he
end

/-! ### Field-tree machinery: runs of subtrees, child infos, and total sums -/

theorem forall2_imp_mem {α β : Type} {P Q : α → β → Prop} :
    ∀ {l1 : List α} {l2 : List β}, List.Forall₂ P l1 l2 →
      (∀ x ∈ l1, ∀ y, P x y → Q x y) → List.Forall₂ Q l1 l2 := by
  intro l1 l2 h
  induction h with
  | nil => intro _; exact .nil
  | cons hp hf ih =>
    intro himp
    exact .cons (himp _ (List.mem_cons_self _ _) _ hp)
      (ih (fun x hx y hy => himp x (List.mem_cons_of_mem _ hx) y hy))

mutual
theorem collectFieldInfo_subtree (desc : RNTupleDescriptor) (colMap : List (Nat × RColumnInfo))
    (t : RFieldTree) :
    ∀ (fmap : List (Nat × RFieldTreeInfo)) (ri : RFieldTreeInfo)
      (m : List (Nat × RFieldTreeInfo)) (s : RFieldTree),
      CollectFieldInfo desc colMap t fmap = .ok (ri, m) →
      t.fieldIds.Nodup →
      (∀ k ∈ mapKeys fmap, k ∉ t.fieldIds) →
      IsSubtree s t →
      ∃ i l, CollectFieldInfo desc colMap s [] = .ok (i, l) ∧ ∀ e ∈ l, e ∈ m := by
  cases t with
  | node fd cols chs =>
    intro fmap ri m s h hnd hdis hsub
    cases hsub with
    | refl =>
      have h' : CollectFieldInfo desc colMap (RFieldTree.node fd cols chs) (fmap ++ []) =
          .ok (ri, m) := by rwa [List.append_nil]
      obtain ⟨m2, hrun, hsplit⟩ :=
        collectFieldInfo_shift desc colMap (RFieldTree.node fd cols chs) fmap [] ri m hdis h'
      refine ⟨ri, m2, hrun, ?_⟩
      intro e he
      rw [hsplit]
      exact List.mem_append_right _ he
    | step hsub' hmem =>
      simp only [RFieldTree.children] at hmem
      simp only [CollectFieldInfo] at h
      cases hs : sumColumnSizes desc colMap 0 0 cols with
      | error e => simp only [hs] at h; exact absurd h (by simp)
      | ok ab =>
        obtain ⟨a, b⟩ := ab
        simp only [hs] at h
        cases hcs : CollectSubFields desc colMap chs fmap a b with
        | error e => simp only [hcs] at h; exact absurd h (by simp)
        | ok r =>
          obtain ⟨a2, b2, m2⟩ := r
          simp only [hcs, Except.ok.injEq, Prod.mk.injEq] at h
          obtain ⟨hri, hm⟩ := h
          have hnd_chs : (fieldIdsList chs).Nodup := by
            have := hnd
            simp only [RFieldTree.fieldIds, List.nodup_cons] at this
            exact this.2
          have hdis' : ∀ k ∈ mapKeys fmap, k ∉ fieldIdsList chs := by
            intro k hk hmm
            exact hdis k hk
              (by simp only [RFieldTree.fieldIds]; exact List.mem_cons_of_mem _ hmm)
          obtain ⟨i, l, hrun, hmemm⟩ := collectSubFields_subtree desc colMap chs fmap a b
            (a2, b2, m2) s _ hcs hnd_chs hdis' hmem hsub'
          refine ⟨i, l, hrun, ?_⟩
          intro e he
          rw [← hm]
          exact mem_mapEmplace_of_mem _ _ (hmemm e he)

theorem collectSubFields_subtree (desc : RNTupleDescriptor) (colMap : List (Nat × RColumnInfo))
    (ts : List RFieldTree) :
    ∀ (fmap : List (Nat × RFieldTreeInfo)) (a b : Nat)
      (r : Nat × Nat × List (Nat × RFieldTreeInfo)) (s c : RFieldTree),
      CollectSubFields desc colMap ts fmap a b = .ok r →
      (fieldIdsList ts).Nodup →
      (∀ k ∈ mapKeys fmap, k ∉ fieldIdsList ts) →
      c ∈ ts → IsSubtree s c →
      ∃ i l, CollectFieldInfo desc colMap s [] = .ok (i, l) ∧ ∀ e ∈ l, e ∈ r.2.2 := by
  cases ts with
  | nil =>
    intro fmap a b r s c _ _ _ hcmem _
    cases hcmem
  | cons t ts =>
    intro fmap a b r s c h hnd hdis hcmem hsub
    simp only [CollectSubFields] at h
    cases hc : CollectFieldInfo desc colMap t fmap with
    | error e => simp only [hc] at h; exact absurd h (by simp)
    | ok p =>
      obtain ⟨i1, m1⟩ := p
      simp only [hc] at h
      have hnd_app := hnd
      simp only [fieldIdsList, List.nodup_append] at hnd_app
      obtain ⟨hnd_t, hnd_ts, hdis_t_ts⟩ := hnd_app
      obtain ⟨l1, hl1, hk1⟩ := collectFieldInfo_extend desc colMap t fmap i1 m1 hc
      obtain ⟨l2ex, hl2ex, _⟩ := collectSubFields_extend desc colMap ts m1
        (a + i1.GetOnDiskSize) (b + i1.GetInMemorySize) r h
      rcases List.mem_cons.mp hcmem with rfl | hcm
      · obtain ⟨i, l, hrun, hmemm⟩ := collectFieldInfo_subtree desc colMap c fmap i1 m1 s hc
          hnd_t (by
            intro k hk hmm
            exact hdis k hk (by simp only [fieldIdsList, List.mem_append]; exact Or.inl hmm))
          hsub
        refine ⟨i, l, hrun, ?_⟩
        intro e he
        rw [hl2ex]
        exact List.mem_append_left _ (hmemm e he)
      · obtain ⟨i, l, hrun, hmemm⟩ := collectSubFields_subtree desc colMap ts m1
          (a + i1.GetOnDiskSize) (b + i1.GetInMemorySize) r s c h hnd_ts (by
            intro k hk hmm
            rw [hl1] at hk
            simp only [mapKeys, List.map_append, List.mem_append] at hk
            rcases hk with hk | hk
            · exact hdis k hk
                (by simp only [fieldIdsList, List.mem_append]; exact Or.inr hmm)
            · exact hdis_t_ts (hk1 k hk) hmm) hcm hsub
        exact ⟨i, l, hrun, hmemm⟩
end

theorem collectSubFields_infos (desc : RNTupleDescriptor) (colMap : List (Nat × RColumnInfo)) :
    ∀ (ts : List RFieldTree) (fmap : List (Nat × RFieldTreeInfo)) (a b : Nat)
      (r : Nat × Nat × List (Nat × RFieldTreeInfo)),
      CollectSubFields desc colMap ts fmap a b = .ok r →
      (fieldIdsList ts).Nodup →
      (∀ k ∈ mapKeys fmap, k ∉ fieldIdsList ts) →
      ∃ infos, List.Forall₂ (fun (c : RFieldTree) (i : RFieldTreeInfo) =>
          ∃ l, CollectFieldInfo desc colMap c [] = .ok (i, l)) ts infos ∧
        r.1 = a + (infos.map (fun i => i.fOnDiskSize)).sum ∧
        r.2.1 = b + (infos.map (fun i => i.fInMemorySize)).sum := by
  intro ts
  induction ts with
  | nil =>
    intro fmap a b r h _ _
    simp only [CollectSubFields, Except.ok.injEq] at h
    subst h
    exact ⟨[], List.Forall₂.nil, by simp, by simp⟩
  | cons t ts ih =>
    intro fmap a b r h hnd hdis
    simp only [CollectSubFields] at h
    cases hc : CollectFieldInfo desc colMap t fmap with
    | error e => simp only [hc] at h; exact absurd h (by simp)
    | ok p =>
      obtain ⟨i1, m1⟩ := p
      simp only [hc] at h
      have hnd_app := hnd
      simp only [fieldIdsList, List.nodup_append] at hnd_app
      obtain ⟨hnd_t, hnd_ts, hdis_t_ts⟩ := hnd_app
      have hdis_t : ∀ k ∈ mapKeys fmap, k ∉ t.fieldIds := by
        intro k hk hmm
        exact hdis k hk (by simp only [fieldIdsList, List.mem_append]; exact Or.inl hmm)
      have hc' : CollectFieldInfo desc colMap t (fmap ++ []) = .ok (i1, m1) := by
        rwa [List.append_nil]
      obtain ⟨l1, hrun1, hsplit1⟩ :=
        collectFieldInfo_shift desc colMap t fmap [] i1 m1 hdis_t hc'
      obtain ⟨l1b, hl1b, hk1⟩ := collectFieldInfo_extend desc colMap t [] i1 l1 hrun1
      obtain ⟨infos, hall, hsum1, hsum2⟩ := ih m1 (a + i1.GetOnDiskSize)
        (b + i1.GetInMemorySize) r h hnd_ts (by
          intro k hk hmm
          rw [hsplit1] at hk
          simp only [mapKeys, List.map_append, List.mem_append] at hk
          rcases hk with hk | hk
          · exact hdis k hk (by simp only [fieldIdsList, List.mem_append]; exact Or.inr hmm)
          · rw [hl1b] at hk
            simp only [List.nil_append] at hk
            exact hdis_t_ts (hk1 k hk) hmm)
      refine ⟨i1 :: infos, List.Forall₂.cons ⟨l1, hrun1⟩ hall, ?_, ?_⟩
      · simp only [List.map_cons, List.sum_cons, RFieldTreeInfo.GetOnDiskSize] at *
        omega
      · simp only [List.map_cons, List.sum_cons, RFieldTreeInfo.GetInMemorySize] at *
        omega

mutual
theorem collectFieldInfo_total (desc : RNTupleDescriptor) (colMap : List (Nat × RColumnInfo))
    (t : RFieldTree) :
    ∀ (fmap : List (Nat × RFieldTreeInfo)) (ri : RFieldTreeInfo)
      (m : List (Nat × RFieldTreeInfo)),
      CollectFieldInfo desc colMap t fmap = .ok (ri, m) →
      ri.fOnDiskSize =
        (t.allColumnIds.map (fun cid => storedOnDiskSize colMap cid)).sum := by
  cases t with
  | node fd cols chs =>
    intro fmap ri m h
    simp only [CollectFieldInfo] at h
    cases hs : sumColumnSizes desc colMap 0 0 cols with
    | error e => simp only [hs] at h; exact absurd h (by simp)
    | ok ab =>
      obtain ⟨a, b⟩ := ab
      simp only [hs] at h
      cases hcs : CollectSubFields desc colMap chs fmap a b with
      | error e => simp only [hcs] at h; exact absurd h (by simp)
      | ok r =>
        obtain ⟨a2, b2, m2⟩ := r
        simp only [hcs, Except.ok.injEq, Prod.mk.injEq] at h
        obtain ⟨hri, _⟩ := h
        obtain ⟨_, ha, _⟩ := sumColumnSizes_ok desc colMap cols 0 0 (a, b) hs
        have ha2 := collectSubFields_total desc colMap chs fmap a b _ hcs
        simp only at ha ha2
        rw [← hri]
        simp only [RFieldTree.allColumnIds, List.map_append, List.sum_append, List.map_map]
        simp only [columnsOnDiskSum] at ha
        have hcomp : (cols.map ((fun cid => storedOnDiskSize colMap cid) ∘
            (fun c => c.physicalId))).sum =
            (cols.map (fun c => storedOnDiskSize colMap c.physicalId)).sum := rfl
        rw [hcomp]
        omega

theorem collectSubFields_total (desc : RNTupleDescriptor) (colMap : List (Nat × RColumnInfo))
    (ts : List RFieldTree) :
    ∀ (fmap : List (Nat × RFieldTreeInfo)) (a b : Nat)
      (r : Nat × Nat × List (Nat × RFieldTreeInfo)),
      CollectSubFields desc colMap ts fmap a b = .ok r →
      r.1 = a + ((allColumnIdsList ts).map (fun cid => storedOnDiskSize colMap cid)).sum := by
  cases ts with
  | nil =>
    intro fmap a b r h
    simp only [CollectSubFields, Except.ok.injEq] at h
    subst h
    simp [allColumnIdsList]
  | cons t ts =>
    intro fmap a b r h
    simp only [CollectSubFields] at h
    cases hc : CollectFieldInfo desc colMap t fmap with
    | error e => simp only [hc] at h; exact absurd h (by simp)
    | ok p =>
      obtain ⟨i1, m1⟩ := p
      simp only [hc] at h
      have h1 := collectFieldInfo_total desc colMap t fmap i1 m1 hc
      have h2 := collectSubFields_total desc colMap ts m1
        (a + i1.GetOnDiskSize) (b + i1.GetInMemorySize) r h
      simp only [allColumnIdsList, List.map_append, List.sum_append,
        RFieldTreeInfo.GetOnDiskSize] at *
      omega
end

/-! ### Queue-loop lemmas -/

theorem numFieldsList_append (a b : List RFieldTree) :
    numFieldsList (a ++ b) = numFieldsList a + numFieldsList b := by
  induction a with
  | nil => simp [numFieldsList]
  | cons t ts ih => simp [numFieldsList, ih]; omega

theorem numFieldsList_children_lt (t : RFieldTree) :
    numFieldsList t.children < t.numFields := by
  cases t with
  | node fd cols chs =>
    simp [RFieldTree.children, RFieldTree.numFields]

theorem nonAliasIdsList_append (a b : List RFieldTree) :
    nonAliasIdsList (a ++ b) = nonAliasIdsList a ++ nonAliasIdsList b := by
  induction a with
  | nil => simp [nonAliasIdsList]
  | cons t ts ih => simp [nonAliasIdsList, ih]

theorem fieldTreeQueueLoop_perm (q : List RFieldTree) :
    (fieldTreeQueueLoop q).Perm (nonAliasIdsList q) := by
  match q with
  | [] =>
    simp [fieldTreeQueueLoop, nonAliasIdsList]
  | t :: rest =>
    have ih := fieldTreeQueueLoop_perm (rest ++ t.children)
    rw [nonAliasIdsList_append] at ih
    have hunf : fieldTreeQueueLoop (t :: rest) =
        nonAliasColumnIds t.cols ++ fieldTreeQueueLoop (rest ++ t.children) := by
      simp [fieldTreeQueueLoop]
    rw [hunf]
    cases t with
    | node fd cols chs =>
      simp only [RFieldTree.cols, RFieldTree.children, nonAliasIdsList,
        RFieldTree.nonAliasIds] at *
      refine (List.Perm.append_left _ ih).trans ?_
      refine (List.Perm.append_left _ List.perm_append_comm).trans ?_
      rw [← List.append_assoc]
termination_by numFieldsList q
decreasing_by
  rw [numFieldsList_append]
  have := numFieldsList_children_lt t
  simp only [numFieldsList]
  omega

theorem fieldTreeQueueLoopFuel_complete (q : List RFieldTree) (acc : List Nat) :
    fieldTreeQueueLoopFuel (numFieldsList q) q acc = some (acc ++ fieldTreeQueueLoop q) := by
  match q with
  | [] =>
    simp [numFieldsList, fieldTreeQueueLoopFuel, fieldTreeQueueLoop]
  | t :: rest =>
    have hn : numFieldsList (t :: rest) = numFieldsList (rest ++ t.children) + 1 := by
      rw [numFieldsList_append]
      cases t with
      | node fd cols chs =>
        simp [numFieldsList, RFieldTree.numFields, RFieldTree.children]
        omega
    rw [hn]
    have hstep : fieldTreeQueueLoopFuel (numFieldsList (rest ++ t.children) + 1) (t :: rest)
        acc = fieldTreeQueueLoopFuel (numFieldsList (rest ++ t.children)) (rest ++ t.children)
          (acc ++ nonAliasColumnIds t.cols) := by
      simp [fieldTreeQueueLoopFuel]
    rw [hstep,
      fieldTreeQueueLoopFuel_complete (rest ++ t.children) (acc ++ nonAliasColumnIds t.cols)]
    have hunf : fieldTreeQueueLoop (t :: rest) =
        nonAliasColumnIds t.cols ++ fieldTreeQueueLoop (rest ++ t.children) := by
      simp [fieldTreeQueueLoop]
    rw [hunf]
    simp [List.append_assoc]
termination_by numFieldsList q
decreasing_by
  rw [numFieldsList_append]
  have := numFieldsList_children_lt t
  simp only [numFieldsList]
  omega

/-! ### Claim theorems: column-set enumeration -/

/-- C6: the breadth-first enumeration applied to any field subtree returns,
up to traversal order, exactly the non-alias column ids attached to the fields
of that subtree (so alias columns never contribute); applied to the root
field, when the tree's non-alias column ids cover each physical column id of
the source exactly once, the result is exactly the set of all physical column
ids, each appearing exactly once. -/
theorem getColumnsForFieldTree_exact (desc : RNTupleDescriptor)
    (hcover : (desc.fieldZero.nonAliasIds).Perm (List.range desc.GetNPhysicalColumns)) :
    (∀ t : RFieldTree, (GetColumnsForFieldTree t).Perm t.nonAliasIds) ∧
    (GetColumnsForFieldTree desc.fieldZero).Perm (List.range desc.GetNPhysicalColumns) := by
  have hall : ∀ t : RFieldTree, (GetColumnsForFieldTree t).Perm t.nonAliasIds := by
    intro t
    have h := fieldTreeQueueLoop_perm [t]
    simpa [GetColumnsForFieldTree, nonAliasIdsList] using h
  exact ⟨hall, (hall _).trans hcover⟩

/-- Witness for C6 at the example source: the enumeration from the root is a
permutation of all three physical column ids. -/
theorem getColumnsForFieldTree_exact_witness :
    (GetColumnsForFieldTree exampleDescriptor.fieldZero).Perm
      (List.range exampleDescriptor.GetNPhysicalColumns) := by
  have heq : exampleDescriptor.fieldZero.nonAliasIds =
      List.range exampleDescriptor.GetNPhysicalColumns := rfl
  exact (getColumnsForFieldTree_exact exampleDescriptor (heq ▸ List.Perm.refl _)).2

/-- C10: the queue-based enumeration terminates on every finite field
hierarchy: each loop iteration dequeues one field and enqueues only its
children, so the number of iterations is exactly the number of fields
reachable from the initial queue; with that much fuel the fueled loop returns
(the queue has emptied) with the value of the recursive function. -/
theorem queue_loop_terminates (q : List RFieldTree) (acc : List Nat) :
    fieldTreeQueueLoopFuel (numFieldsList q) q acc = some (acc ++ fieldTreeQueueLoop q) :=
  fieldTreeQueueLoopFuel_complete q acc

/-! ### Claim theorems: root aggregate and type counts -/

/-- C2: the root aggregate computed by the field-tree aggregation equals the
whole-source on-disk total accumulated by the column-statistics pass, whenever
the columns attached to the field tree cover each physical column id exactly
once. -/
theorem root_aggregate_eq_whole_source (desc : RNTupleDescriptor) (st : CollectState)
    (ri : RFieldTreeInfo) (m : List (Nat × RFieldTreeInfo))
    (hcc : CollectColumnInfo desc = .ok st)
    (hcf : CollectFieldInfo desc st.fColumnInfo desc.fieldZero [] = .ok (ri, m))
    (hcover : (desc.fieldZero.allColumnIds).Perm (List.range desc.GetNPhysicalColumns)) :
    ri.fOnDiskSize = st.fOnDiskSize ∧
    st.fOnDiskSize = ((List.range desc.GetNPhysicalColumns).map
      (fun i => columnOnDiskSum desc i)).sum := by
  have htot := collectFieldInfo_total desc st.fColumnInfo desc.fieldZero [] ri m hcf
  obtain ⟨hmap, hsum, _, _⟩ := collectColumnInfo_ok desc st hcc
  refine ⟨?_, hsum⟩
  rw [htot]
  have hpermsum : ((desc.fieldZero.allColumnIds).map
      (fun cid => storedOnDiskSize st.fColumnInfo cid)).sum =
      ((List.range desc.GetNPhysicalColumns).map
        (fun cid => storedOnDiskSize st.fColumnInfo cid)).sum :=
    (hcover.map _).sum_eq
  rw [hpermsum, hsum]
  have hpt : ∀ i ∈ List.range desc.GetNPhysicalColumns,
      storedOnDiskSize st.fColumnInfo i = columnOnDiskSum desc i := by
    intro i hi
    have hlook : lookupEntry st.fColumnInfo i = some (mkColumnInfo desc i) := by
      rw [hmap]
      simp only [idColumnInfoMap]
      exact lookupEntry_map_of_mem _ hi
    simp [storedOnDiskSize, hlook, mkColumnInfo, RColumnInfo.GetOnDiskSize]
  rw [List.map_congr_left hpt]

/-- Witness for C2 at the example source (root aggregate 90 = 40 + 10 + 40). -/
theorem root_aggregate_eq_whole_source_witness :
    ∃ st ri m, CollectColumnInfo exampleDescriptor = .ok st ∧
      CollectFieldInfo exampleDescriptor st.fColumnInfo exampleDescriptor.fieldZero [] =
        .ok (ri, m) ∧
      (ri.fOnDiskSize = st.fOnDiskSize ∧
        st.fOnDiskSize = ((List.range exampleDescriptor.GetNPhysicalColumns).map
          (fun i => columnOnDiskSum exampleDescriptor i)).sum) := by
  refine ⟨_, _, _, rfl, rfl, ?_⟩
  have heq : exampleDescriptor.fieldZero.allColumnIds =
      List.range exampleDescriptor.GetNPhysicalColumns := rfl
  exact root_aggregate_eq_whole_source exampleDescriptor _ _ _ rfl rfl
    (heq ▸ List.Perm.refl _)

theorem getFieldTypeCount_eq_countP (insp : RNTupleInspector) (nm : String)
    (includeSubFields : Bool) :
    insp.GetFieldTypeCount nm includeSubFields =
      (insp.fFieldInfo.map (fun e => e.2.fieldDescriptor)).countP
        (fun fd => (includeSubFields || fd.parentId == insp.fDescriptor.GetFieldZeroId) &&
          nm == fd.typeName) := by
  have key : ∀ (l : List (Nat × RFieldTreeInfo)) (n : Nat),
      l.foldl (fun typeCount entry =>
        if !includeSubFields &&
            entry.2.GetDescriptor.parentId != insp.fDescriptor.GetFieldZeroId then typeCount
        else if nm == entry.2.GetDescriptor.typeName then typeCount + 1
        else typeCount) n =
      n + (l.map (fun e => e.2.fieldDescriptor)).countP
        (fun fd => (includeSubFields || fd.parentId == insp.fDescriptor.GetFieldZeroId) &&
          nm == fd.typeName) := by
    intro l
    induction l with
    | nil => intro n; simp
    | cons e l ih =>
      intro n
      simp only [List.foldl_cons, List.map_cons, List.countP_cons]
      rw [ih]
      cases hinc : includeSubFields <;>
        cases hp : (e.2.fieldDescriptor.parentId == insp.fDescriptor.GetFieldZeroId) <;>
          cases hn : (nm == e.2.fieldDescriptor.typeName) <;>
            simp [RFieldTreeInfo.GetDescriptor, bne, hinc, hp, hn] <;> omega
  have h0 := key insp.fFieldInfo 0
  simpa [RNTupleInspector.GetFieldTypeCount] using h0

/-- C8: with includeSubFields false, the field type-count query counts exactly
the fields of the tree whose stored parent id is the zero-field id and whose
type name matches exactly; with includeSubFields true it counts all fields of
the tree whose type name matches exactly. -/
theorem getFieldTypeCount_matches_tree (desc : RNTupleDescriptor) (insp : RNTupleInspector)
    (nm : String) (hcr : Create desc = .ok insp) (hnd : desc.fieldZero.fieldIds.Nodup) :
    insp.GetFieldTypeCount nm false =
      ((desc.fieldZero.fieldDescs).filter
        (fun fd => (fd.parentId == desc.GetFieldZeroId) && (nm == fd.typeName))).length ∧
    insp.GetFieldTypeCount nm true =
      ((desc.fieldZero.fieldDescs).filter (fun fd => nm == fd.typeName)).length := by
  obtain ⟨st, ri, hcc, hcf, hdesc, _, _, _, _⟩ := create_ok_inv desc insp hcr
  obtain ⟨l, hl, hperm, hkey, _, _⟩ := collectFieldInfo_entries desc st.fColumnInfo
    desc.fieldZero [] ri insp.fFieldInfo hcf hnd (by intro k hk; cases hk)
  have hm_eq : insp.fFieldInfo = l := by simpa using hl
  constructor
  · rw [getFieldTypeCount_eq_countP, hm_eq, hdesc]
    simp only [Bool.false_or]
    rw [hperm.countP_eq, List.countP_eq_length_filter]
  · rw [getFieldTypeCount_eq_countP, hm_eq, hdesc]
    simp only [Bool.true_or, Bool.true_and]
    rw [hperm.countP_eq, List.countP_eq_length_filter]

/-- Witness for C8 at the example source with type name "float": one direct
child of the root matches, two fields in the whole tree match. -/
theorem getFieldTypeCount_matches_tree_witness :
    ∃ insp, Create exampleDescriptor = .ok insp ∧
      (insp.GetFieldTypeCount "float" false =
        ((exampleDescriptor.fieldZero.fieldDescs).filter
          (fun fd => (fd.parentId == exampleDescriptor.GetFieldZeroId) &&
            ("float" == fd.typeName))).length ∧
      insp.GetFieldTypeCount "float" true =
        ((exampleDescriptor.fieldZero.fieldDescs).filter
          (fun fd => "float" == fd.typeName)).length) := by
  refine ⟨_, rfl, ?_⟩
  exact getFieldTypeCount_matches_tree exampleDescriptor _ "float" rfl (by decide)

/-! ### Claim theorem: the per-field aggregation invariant -/

/-- C1: after construction, for every field of the schema (every subtree of
the field-zero hierarchy) the stored `RFieldTreeInfo` satisfies: its on-disk
size equals the sum of the stored on-disk sizes of the columns directly
associated with the field plus the sum of the stored `RFieldTreeInfo` on-disk
sizes of its direct child fields, and likewise for the in-memory size;
leaf fields (no children, empty `Forall₂`) bottom out with the column sums
alone. -/
theorem fieldTreeInfo_recursive_sum (desc : RNTupleDescriptor) (insp : RNTupleInspector)
    (hcr : Create desc = .ok insp) (hnd : desc.fieldZero.fieldIds.Nodup)
    (s : RFieldTree) (hsub : IsSubtree s desc.fieldZero) :
    ∃ info cinfos,
      lookupEntry insp.fFieldInfo s.rootFieldId = some info ∧
      List.Forall₂ (fun (c : RFieldTree) (ci : RFieldTreeInfo) =>
        lookupEntry insp.fFieldInfo c.rootFieldId = some ci) s.children cinfos ∧
      (∀ c ∈ s.cols, ∃ ci, lookupEntry insp.fColumnInfo c.physicalId = some ci) ∧
      info.fOnDiskSize = columnsOnDiskSum insp.fColumnInfo s.cols +
        (cinfos.map (fun i => i.fOnDiskSize)).sum ∧
      info.fInMemorySize = columnsInMemSum insp.fColumnInfo s.cols +
        (cinfos.map (fun i => i.fInMemorySize)).sum := by
  obtain ⟨st, ri, hcc, hcf, hdesc, hcol, _, _, _⟩ := create_ok_inv desc insp hcr
  obtain ⟨l, hl, hperm, hkeyf, _, _⟩ := collectFieldInfo_entries desc st.fColumnInfo
    desc.fieldZero [] ri insp.fFieldInfo hcf hnd (by intro k hk; cases hk)
  have hm_eq : insp.fFieldInfo = l := by simpa using hl
  have hkeysmap : mapKeys insp.fFieldInfo =
      (l.map (fun e => e.2.fieldDescriptor)).map (fun fd => fd.fieldId) := by
    rw [hm_eq]
    simp only [mapKeys, List.map_map]
    exact List.map_congr_left (fun e he => hkeyf e he)
  have hkeysperm : (mapKeys insp.fFieldInfo).Perm desc.fieldZero.fieldIds := by
    rw [hkeysmap, fieldIds_eq_map]
    exact hperm.map _
  have hndkeys : (mapKeys insp.fFieldInfo).Nodup := hkeysperm.nodup_iff.mpr hnd
  have hstored : ∀ x : RFieldTree, IsSubtree x desc.fieldZero →
      ∀ (ix : RFieldTreeInfo) (lx : List (Nat × RFieldTreeInfo)),
      CollectFieldInfo desc st.fColumnInfo x [] = .ok (ix, lx) →
      lookupEntry insp.fFieldInfo x.rootFieldId = some ix := by
    intro x hx ix lx hrunx
    obtain ⟨ix2, lx2, hrunx2, hmemx⟩ := collectFieldInfo_subtree desc st.fColumnInfo
      desc.fieldZero [] ri insp.fFieldInfo x hcf hnd (by intro k hk; cases hk) hx
    rw [hrunx] at hrunx2
    simp only [Except.ok.injEq, Prod.mk.injEq] at hrunx2
    obtain ⟨hi, hl2⟩ := hrunx2
    subst hi
    subst hl2
    have hndx : x.fieldIds.Nodup := nodup_of_subtree hx hnd
    obtain ⟨lx3, hlx3, _, _, hselfx, _⟩ := collectFieldInfo_entries desc st.fColumnInfo x []
      ix lx hrunx hndx (by intro k hk; cases hk)
    have hlx3' : lx = lx3 := by simpa using hlx3
    have hx_in : (x.rootFieldId, ix) ∈ insp.fFieldInfo := by
      apply hmemx
      rw [hlx3']
      exact hselfx
    exact lookupEntry_of_mem_nodup hx_in hndkeys
  obtain ⟨i_s, l_s, hrun_s, _⟩ := collectFieldInfo_subtree desc st.fColumnInfo desc.fieldZero
    [] ri insp.fFieldInfo s hcf hnd (by intro k hk; cases hk) hsub
  have hlook_s : lookupEntry insp.fFieldInfo s.rootFieldId = some i_s :=
    hstored s hsub i_s l_s hrun_s
  have hnd_s : s.fieldIds.Nodup := nodup_of_subtree hsub hnd
  cases s with
  | node fd cols chs =>
    simp only [CollectFieldInfo] at hrun_s
    cases hs : sumColumnSizes desc st.fColumnInfo 0 0 cols with
    | error e => simp only [hs] at hrun_s; exact absurd hrun_s (by simp)
    | ok ab =>
      obtain ⟨a, b⟩ := ab
      simp only [hs] at hrun_s
      cases hcs : CollectSubFields desc st.fColumnInfo chs [] a b with
      | error e => simp only [hcs] at hrun_s; exact absurd hrun_s (by simp)
      | ok r =>
        obtain ⟨a2, b2, m2⟩ := r
        simp only [hcs, Except.ok.injEq, Prod.mk.injEq] at hrun_s
        obtain ⟨hinfo, _⟩ := hrun_s
        obtain ⟨hlooks, ha, hb⟩ := sumColumnSizes_ok desc st.fColumnInfo cols 0 0 (a, b) hs
        simp only at ha hb
        have hnd_chs : (fieldIdsList chs).Nodup := by
          have := hnd_s
          simp only [RFieldTree.fieldIds, List.nodup_cons] at this
          exact this.2
        obtain ⟨infos, hforall, hsum1, hsum2⟩ := collectSubFields_infos desc st.fColumnInfo
          chs [] a b (a2, b2, m2) hcs hnd_chs (by intro k hk; cases hk)
        simp only at hsum1 hsum2
        have hOn : i_s.fOnDiskSize = a2 := by rw [← hinfo]
        have hIm : i_s.fInMemorySize = b2 := by rw [← hinfo]
        have hfor2 : List.Forall₂ (fun (c : RFieldTree) (ci : RFieldTreeInfo) =>
            lookupEntry insp.fFieldInfo c.rootFieldId = some ci) chs infos := by
          apply forall2_imp_mem hforall
          intro x hx y hy
          obtain ⟨lx, hrunx⟩ := hy
          have hxsub : IsSubtree x desc.fieldZero :=
            IsSubtree.trans
              (@IsSubtree.step x x (RFieldTree.node fd cols chs) (IsSubtree.refl x)
                (show x ∈ (RFieldTree.node fd cols chs).children from hx)) hsub
          exact hstored x hxsub y lx hrunx
        refine ⟨i_s, infos, hlook_s, hfor2, ?_, ?_, ?_⟩
        · intro c hc
          rw [hcol]
          exact hlooks c hc
        · rw [hcol]
          simp only [RFieldTree.cols]
          omega
        · rw [hcol]
          simp only [RFieldTree.cols]
          omega

/-- Witness for C1: the root field of the example source. -/
theorem fieldTreeInfo_recursive_sum_witness :
    ∃ insp, Create exampleDescriptor = .ok insp ∧
      ∃ info cinfos,
        lookupEntry insp.fFieldInfo exampleDescriptor.fieldZero.rootFieldId = some info ∧
        List.Forall₂ (fun (c : RFieldTree) (ci : RFieldTreeInfo) =>
          lookupEntry insp.fFieldInfo c.rootFieldId = some ci)
          exampleDescriptor.fieldZero.children cinfos ∧
        (∀ c ∈ exampleDescriptor.fieldZero.cols,
          ∃ ci, lookupEntry insp.fColumnInfo c.physicalId = some ci) ∧
        info.fOnDiskSize = columnsOnDiskSum insp.fColumnInfo exampleDescriptor.fieldZero.cols +
          (cinfos.map (fun i => i.fOnDiskSize)).sum ∧
        info.fInMemorySize =
          columnsInMemSum insp.fColumnInfo exampleDescriptor.fieldZero.cols +
          (cinfos.map (fun i => i.fInMemorySize)).sum := by
  refine ⟨_, rfl, ?_⟩
  exact fieldTreeInfo_recursive_sum exampleDescriptor _ rfl (by decide) _ (IsSubtree.refl _)
